import Mathlib

/-!
Verification development for the kaku note-taking engine
(`src-tauri/src`: domain/note.rs, domain/backlink.rs,
infrastructure/sqlite_index.rs, infrastructure/hybrid_repository.rs,
services/search_service.rs, commands/gallery.rs).

Strings are modelled as Lean `String`/`List Char`; Rust byte slices as
`List Nat` (each element a byte value).  Machine integers are `Nat` with
explicit `% 2 ^ w` where overflow matters.  Fallible Rust functions
return `Option`/`Except`.
-/

set_option maxRecDepth 40000
set_option linter.unusedVariables false

namespace Kaku

/-! ## Rust string primitives

`char::is_whitespace` in Rust follows the Unicode `White_Space`
property; the full code-point list is reproduced here. -/

def rustIsWhitespace (c : Char) : Bool :=
  let n := c.toNat
  (0x09 ≤ n ∧ n ≤ 0x0D) ∨ n = 0x20 ∨ n = 0x85 ∨ n = 0xA0 ∨ n = 0x1680 ∨
  (0x2000 ≤ n ∧ n ≤ 0x200A) ∨ n = 0x2028 ∨ n = 0x2029 ∨ n = 0x202F ∨
  n = 0x205F ∨ n = 0x3000

/-- Model of `str::trim_start` (drop leading whitespace). -/
def trimStartL (cs : List Char) : List Char :=
  cs.dropWhile rustIsWhitespace

/-- Model of `str::trim_end` (drop trailing whitespace). -/
def trimEndL (cs : List Char) : List Char :=
  (cs.reverse.dropWhile rustIsWhitespace).reverse

/-- Model of `str::trim`. -/
def trimL (cs : List Char) : List Char :=
  trimEndL (trimStartL cs)

def trimRust (s : String) : String :=
  ⟨trimL s.data⟩

/-- Model of `str::starts_with` for a string pattern (also used on
byte slices). -/
def startsWithL {α : Type} [DecidableEq α] (pat cs : List α) : Bool :=
  pat.isPrefixOf cs

/-- Fuel-driven worker for `trimStartMatchesL`; since a non-empty
prefix strips at least one character per step, `fuel = cs.length`
always suffices. -/
def trimStartMatchesF (pat : List Char) : Nat → List Char → List Char
  | 0, cs => cs
  | fuel + 1, cs =>
    if pat ≠ [] ∧ startsWithL pat cs then
      trimStartMatchesF pat fuel (cs.drop pat.length)
    else cs

/-- Model of `str::trim_start_matches`: the prefix is stripped
repeatedly, as in Rust. -/
def trimStartMatchesL (pat : List Char) (cs : List Char) : List Char :=
  trimStartMatchesF pat cs.length cs

/-- Model of `str::strip_prefix` (strips the prefix once, `none` when
the string does not start with it). -/
def stripPrefOnce (pat cs : List Char) : Option (List Char) :=
  if startsWithL pat cs then some (cs.drop pat.length) else none

/-- Model of `str::lines`: split at `'\n'`, where a `'\r'` immediately
before the `'\n'` is removed with it; a final segment is produced only
when non-empty (so a trailing newline adds no empty line). -/
def linesL : List Char → List (List Char)
  | [] => []
  | cs =>
    let rec go : List Char → List Char → List (List Char)
      | acc, [] => if acc.isEmpty then [] else [acc.reverse]
      | acc, '\n' :: rest =>
          (match acc with
           | '\r' :: acc' => acc'.reverse
           | _ => acc.reverse) :: go [] rest
      | acc, c :: rest => go (c :: acc) rest
    go [] cs

/-- UTF-8 byte length of one scalar value, as `Char::len_utf8`. -/
def utf8SizeC (c : Char) : Nat :=
  if c.toNat < 0x80 then 1
  else if c.toNat < 0x800 then 2
  else if c.toNat < 0x10000 then 3
  else 4

/-- UTF-8 byte length of a character sequence. -/
def utf8Len (cs : List Char) : Nat :=
  (cs.map utf8SizeC).sum

/-- UTF-8 encoding of one scalar value. -/
def utf8EncodeChar (c : Char) : List Nat :=
  let n := c.toNat
  if n < 0x80 then [n]
  else if n < 0x800 then [0xC0 + n / 64, 0x80 + n % 64]
  else if n < 0x10000 then
    [0xE0 + n / 4096, 0x80 + n / 64 % 64, 0x80 + n % 64]
  else
    [0xF0 + n / 262144, 0x80 + n / 4096 % 64, 0x80 + n / 64 % 64, 0x80 + n % 64]

/-- UTF-8 bytes of a string (`str::as_bytes`). -/
def utf8Bytes (s : String) : List Nat :=
  s.data.flatMap utf8EncodeChar

/-- Index of the first occurrence of `pat` in `cs` (model of
`str::find` for a string pattern; offsets agree with Rust's byte
offsets whenever the surrounding slicing is ASCII-aligned, which holds
at every use below). -/
def firstIdxOf {α : Type} [DecidableEq α] (pat : List α) : List α → Option Nat
  | [] => if pat = [] then some 0 else none
  | c :: rest =>
    if startsWithL pat (c :: rest) then some 0
    else (firstIdxOf pat rest).map (· + 1)

/-- ASCII lowercasing; model of `str::to_lowercase`.  The non-ASCII
simple case mappings of `char::to_lowercase` are not reproduced: no
claim below depends on the mapping of a non-ASCII letter. -/
def toLowercaseRust (s : String) : String :=
  ⟨s.data.map fun c => if 'A' ≤ c ∧ c ≤ 'Z' then Char.ofNat (c.toNat + 32) else c⟩

/-! ## Timestamps

`chrono::DateTime<Utc>` values are modelled at second precision as a
calendar sextuple, which is exactly the information that survives the
`%Y-%m-%d %H:%M:%S` format used throughout the code. -/

structure DateTimeE where
  year : Nat
  month : Nat
  day : Nat
  hour : Nat
  minute : Nat
  second : Nat
deriving DecidableEq, Repr

/-- Field ranges under which chrono both formats the value with the
fixed widths of `%Y-%m-%d %H:%M:%S` and accepts it back. -/
def DateTimeE.Valid (d : DateTimeE) : Prop :=
  d.year < 10000 ∧ 1 ≤ d.month ∧ d.month ≤ 12 ∧ 1 ≤ d.day ∧ d.day ≤ 31 ∧
  d.hour < 24 ∧ d.minute < 60 ∧ d.second < 60

instance (d : DateTimeE) : Decidable d.Valid := by
  unfold DateTimeE.Valid; infer_instance

def digitChar (n : Nat) : Char := Char.ofNat (48 + n)

/-- Zero-padded two-digit decimal rendering. -/
def pad2 (n : Nat) : List Char := [digitChar (n / 10 % 10), digitChar (n % 10)]

/-- Zero-padded four-digit decimal rendering. -/
def pad4 (n : Nat) : List Char :=
  [digitChar (n / 1000 % 10), digitChar (n / 100 % 10),
   digitChar (n / 10 % 10), digitChar (n % 10)]

/-- Format `%Y-%m-%d %H:%M:%S`, as `format_datetime` in both
`note.rs` and `sqlite_index.rs`. -/
def format_datetime (d : DateTimeE) : List Char :=
  pad4 d.year ++ '-' :: pad2 d.month ++ '-' :: pad2 d.day ++
  ' ' :: pad2 d.hour ++ ':' :: pad2 d.minute ++ ':' :: pad2 d.second

def digitVal (c : Char) : Nat := c.toNat - 48

def isDigitC (c : Char) : Bool := '0' ≤ c ∧ c ≤ '9'

/-- Parse the strict `%Y-%m-%d %H:%M:%S` form.  The RFC-3339 fallback
branch of `NoteMetadata::parse_datetime` (legacy inputs only) is
modelled as rejection; no input produced by `format_datetime` reaches
it. -/
def parse_datetime (cs : List Char) : Option DateTimeE :=
  match cs with
  | [y3, y2, y1, y0, '-', mo1, mo0, '-', d1, d0, ' ',
     h1, h0, ':', mi1, mi0, ':', s1, s0] =>
    if (([y3, y2, y1, y0, mo1, mo0, d1, d0, h1, h0, mi1, mi0, s1, s0]).all isDigitC) then
      let y := ((digitVal y3 * 10 + digitVal y2) * 10 + digitVal y1) * 10 + digitVal y0
      let mo := digitVal mo1 * 10 + digitVal mo0
      let d := digitVal d1 * 10 + digitVal d0
      let h := digitVal h1 * 10 + digitVal h0
      let mi := digitVal mi1 * 10 + digitVal mi0
      let s := digitVal s1 * 10 + digitVal s0
      if 1 ≤ mo ∧ mo ≤ 12 ∧ 1 ≤ d ∧ d ≤ 31 ∧ h < 24 ∧ mi < 60 ∧ s < 60 then
        some ⟨y, mo, d, h, mi, s⟩
      else none
    else none
  | _ => none

/-! ## domain/note.rs -/

structure NoteMetadata where
  uid : String
  title : Option String
  tags : List String
  created_at : DateTimeE
  updated_at : DateTimeE
deriving DecidableEq, Repr

structure Note where
  metadata : NoteMetadata
  content : String
  is_dirty : Bool
deriving DecidableEq, Repr

inductive NoteParseError where
  | MissingFrontMatter
  | InvalidFrontMatter
deriving DecidableEq, Repr

/-- Split at commas; model of `str::split(',')`. -/
def splitOnComma (cs : List Char) : List (List Char) :=
  match cs with
  | [] => [[]]
  | ',' :: rest => [] :: splitOnComma rest
  | c :: rest =>
    match splitOnComma rest with
    | [] => [[c]]
    | seg :: segs => (c :: seg) :: segs

/-- Accumulator of the line loop in `NoteMetadata::from_yaml`. -/
structure YamlState where
  uid : Option (List Char)
  title : Option (List Char)
  tags : List (List Char)
  created_at : Option DateTimeE
  updated_at : Option DateTimeE
  in_tags : Bool
deriving Repr

def yamlInit : YamlState := ⟨none, none, [], none, none, false⟩

/-- One iteration of the `for line in yaml.lines()` loop of
`NoteMetadata::from_yaml`. -/
def yamlStep (st : YamlState) (line : List Char) : YamlState :=
  let lt := trimL line
  if st.in_tags ∧ startsWithL ['-', ' '] lt then
    let tag := trimL (trimStartMatchesL ['-', ' '] lt)
    if tag ≠ [] then { st with tags := st.tags ++ [tag] } else st
  else
    let st :=
      if st.in_tags ∧ lt ≠ [] ∧ line.head? ≠ some ' ' ∧ line.head? ≠ some '\t' then
        { st with in_tags := false }
      else st
    if startsWithL ("uid:").data lt then
      { st with uid := some (trimL (trimStartMatchesL ("uid:").data lt)) }
    else if startsWithL ("title:").data lt then
      let v := trimL (trimStartMatchesL ("title:").data lt)
      if v ≠ [] then { st with title := some v } else st
    else if startsWithL ("tags:").data lt then
      let inline := trimL (trimStartMatchesL ("tags:").data lt)
      if startsWithL ['['] inline ∧ inline.getLast? = some ']' then
        let inner := (inline.drop 1).dropLast
        { st with tags := ((splitOnComma inner).map trimL).filter (· ≠ []) }
      else if inline = [] then { st with in_tags := true }
      else st
    else if startsWithL ("created_at:").data lt then
      { st with created_at :=
          parse_datetime (trimL (trimStartMatchesL ("created_at:").data lt)) }
    else if startsWithL ("updated_at:").data lt then
      { st with updated_at :=
          parse_datetime (trimL (trimStartMatchesL ("updated_at:").data lt)) }
    else st

/-- Model of `NoteMetadata::from_yaml` (the custom line-oriented
parser). -/
def NoteMetadata.from_yaml (yaml : List Char) : Option NoteMetadata :=
  let st := (linesL yaml).foldl yamlStep yamlInit
  match st.uid, st.created_at, st.updated_at with
  | some uid, some c, some u =>
    some ⟨⟨uid⟩, st.title.map (⟨·⟩), st.tags.map (⟨·⟩), c, u⟩
  | _, _, _ => none

/-- Model of `NoteMetadata::to_yaml`. -/
def NoteMetadata.to_yaml (m : NoteMetadata) : List Char :=
  let titleLine := match m.title with
    | some t => ("title: ").data ++ t.data ++ ['\n']
    | none => []
  let tagsLine :=
    if m.tags.isEmpty then []
    else ("tags:\n").data ++
      (List.intersperse ['\n'] (m.tags.map fun t => ("  - ").data ++ t.data)).flatten ++ ['\n']
  ("uid: ").data ++ m.uid.data ++ '\n' :: titleLine ++ tagsLine ++
  ("created_at: ").data ++ format_datetime m.created_at ++
  '\n' :: ("updated_at: ").data ++ format_datetime m.updated_at

/-- Model of `Note::from_file_content`. -/
def Note.from_file_content (content : String) : Except NoteParseError Note :=
  let cs := content.data
  if ¬ startsWithL ("---\n").data cs then .error .MissingFrontMatter
  else
    match firstIdxOf ("\n---").data (cs.drop 4) with
    | none => .error .InvalidFrontMatter
    | some em =>
      match NoteMetadata.from_yaml ((cs.drop 4).take em) with
      | none => .error .InvalidFrontMatter
      | some md =>
        let bodyStart := 4 + em + 4
        let body :=
          if bodyStart < cs.length then (cs.drop bodyStart).dropWhile (· = '\n')
          else []
        .ok ⟨md, ⟨body⟩, false⟩

/-- Model of `Note::to_file_content`. -/
def Note.to_file_content (n : Note) : String :=
  ⟨("---\n").data ++ n.metadata.to_yaml ++ ("\n---\n\n").data ++ n.content.data⟩

def headingOfLines : List (List Char) → Option String
  | [] => none
  | l :: rest =>
    let t := trimL l
    match stripPrefOnce ['#', ' '] t with
    | some h1 => some ⟨trimL h1⟩
    | none =>
      match stripPrefOnce ['#', '#', ' '] t with
      | some h2 => some ⟨trimL h2⟩
      | none => headingOfLines rest

/-- Model of `Note::extract_heading` (first H1 or H2 heading of the
body). -/
def Note.extract_heading (n : Note) : Option String :=
  headingOfLines (linesL n.content.data)

/-- Character class of the hashtag regex
`(?:^|\s)#([a-zA-Z0-9_\-぀-ゟ゠-ヿ一-鿿]+)`. -/
def hashtagChar (c : Char) : Bool :=
  let n := c.toNat
  ('a' ≤ c ∧ c ≤ 'z') ∨ ('A' ≤ c ∧ c ≤ 'Z') ∨ ('0' ≤ c ∧ c ≤ '9') ∨
  c = '_' ∨ c = '-' ∨ (0x3040 ≤ n ∧ n ≤ 0x309F) ∨ (0x30A0 ≤ n ∧ n ≤ 0x30FF) ∨
  (0x4E00 ≤ n ∧ n ≤ 0x9FFF)

inductive HtState where
  | out (prevWs : Bool)
  | afterHash
  | inTag (acc : List Char)

def pushHashtag (tags : List String) (acc : List Char) : List String :=
  let tag := toLowercaseRust ⟨acc⟩
  if tag ∈ tags then tags else tags ++ [tag]

/-- One scanner step; equivalent to the leftmost, non-overlapping
matching of `captures_iter` for the hashtag regex. -/
def htStep : List String × HtState → Char → List String × HtState
  | (tags, .out pw), c =>
    if pw ∧ c = '#' then (tags, .afterHash) else (tags, .out (rustIsWhitespace c))
  | (tags, .afterHash), c =>
    if hashtagChar c then (tags, .inTag [c]) else (tags, .out (rustIsWhitespace c))
  | (tags, .inTag acc), c =>
    if hashtagChar c then (tags, .inTag (acc ++ [c]))
    else (pushHashtag tags acc, .out (rustIsWhitespace c))

/-- Model of `Note::extract_hashtags`. -/
def Note.extract_hashtags (n : Note) : List String :=
  match n.content.data.foldl htStep ([], .out true) with
  | (tags, .inTag acc) => pushHashtag tags acc
  | (tags, _) => tags

/-- Stable insertion into an ascending list; `Vec::sort` is a stable
ascending sort, reproduced here by insertion sort. -/
def insertAsc (x : String) : List String → List String
  | [] => [x]
  | y :: ys => if y ≤ x then y :: insertAsc x ys else x :: y :: ys

def sortStrings (l : List String) : List String :=
  l.foldl (fun acc x => insertAsc x acc) []

/-- Model of `Note::all_tags` (front-matter tags merged with hashtags,
case-insensitively deduplicated, sorted). -/
def Note.all_tags (n : Note) : List String :=
  let all := n.extract_hashtags.foldl
    (fun all tag =>
      if all.any (fun t => toLowercaseRust t = toLowercaseRust tag) then all
      else all ++ [tag])
    n.metadata.tags
  sortStrings all

/-! ## domain/backlink.rs

`extract_wiki_links` is written in Rust as an outer scan with a nested
bracket-consuming loop over a peekable `char_indices` iterator.  It is
embedded as the equivalent four-state machine folded over the
characters (the spec itself describes the parser as a state machine);
`position` is the byte offset of the first `[` of the link, tracked by
accumulating UTF-8 sizes exactly as `char_indices` does. -/

structure ExtractedLink where
  title : String
  display : Option String
  position : Nat
deriving DecidableEq, Repr

inductive WlState where
  /-- scanning outside any link -/
  | out
  /-- saw `[` at byte offset `p`, awaiting the peek for a second `[` -/
  | seenLB (p : Nat)
  /-- inside `[[ ... ]]`, accumulating title/display -/
  | inLink (p : Nat) (title : List Char) (display : Option (List Char))
  /-- saw a `]` inside a link, awaiting the peek for a second `]` -/
  | seenRB (p : Nat) (title : List Char) (display : Option (List Char))
deriving Repr

def emitLink (links : List ExtractedLink) (p : Nat) (t : List Char)
    (d : Option (List Char)) : List ExtractedLink :=
  if t ≠ [] then
    links ++ [⟨⟨trimL t⟩, d.map fun dl => ⟨trimL dl⟩, p⟩]
  else links

/-- One character step of `extract_wiki_links`. -/
def wlStep : List ExtractedLink × Nat × WlState → Char →
    List ExtractedLink × Nat × WlState
  | (links, pos, st), c =>
    let pos' := pos + utf8SizeC c
    match st with
    | .out => (links, pos', if c = '[' then .seenLB pos else .out)
    | .seenLB p =>
      if c = '[' then (links, pos', .inLink p [] none)
      else (links, pos', .out)
    | .inLink p t d =>
      if c = ']' then (links, pos', .seenRB p t d)
      else if c = '\n' then (links, pos', .out)
      else if c = '|' ∧ d = none then (links, pos', .inLink p t (some []))
      else match d with
        | some dl => (links, pos', .inLink p t (some (dl ++ [c])))
        | none => (links, pos', .inLink p (t ++ [c]) none)
    | .seenRB p t d =>
      if c = ']' then (emitLink links p t d, pos', .out)
      else if c = '\n' then (links, pos', .out)
      else if c = '|' ∧ d = none then (links, pos', .inLink p t (some []))
      else match d with
        | some dl => (links, pos', .inLink p t (some (dl ++ [c])))
        | none => (links, pos', .inLink p (t ++ [c]) none)

/-- Model of `extract_wiki_links`. -/
def extract_wiki_links (content : String) : List ExtractedLink :=
  (content.data.foldl wlStep ([], 0, .out)).1

/-! ## BLAKE3 (the `blake3` crate as called by `compute_hash`)

A faithful executable implementation of the BLAKE3 hash with the
default 256-bit output: 32-bit words are `Nat` reduced `% 2 ^ 32`. -/

def IV : List Nat :=
  [0x6A09E667, 0xBB67AE85, 0x3C6EF372, 0xA54FF53A,
   0x510E527F, 0x9B05688C, 0x1F83D9AB, 0x5BE0CD19]

def MSG_PERM : List Nat := [2, 6, 3, 10, 7, 0, 4, 13, 1, 11, 12, 5, 9, 14, 15, 8]

def add32 (a b : Nat) : Nat := (a + b) % 4294967296

def rotr32 (x n : Nat) : Nat :=
  Nat.lor (x >>> n) ((x <<< (32 - n)) % 4294967296)

/-- The quarter-round `g` of the BLAKE3 compression function. -/
def gMix (st : List Nat) (a b c d mx my : Nat) : List Nat :=
  let sa := st.getD a 0
  let sb := st.getD b 0
  let sc := st.getD c 0
  let sd := st.getD d 0
  let sa := add32 (add32 sa sb) mx
  let sd := rotr32 (Nat.xor sd sa) 16
  let sc := add32 sc sd
  let sb := rotr32 (Nat.xor sb sc) 12
  let sa := add32 (add32 sa sb) my
  let sd := rotr32 (Nat.xor sd sa) 8
  let sc := add32 sc sd
  let sb := rotr32 (Nat.xor sb sc) 7
  (((st.set a sa).set b sb).set c sc).set d sd

def roundFn (st m : List Nat) : List Nat :=
  let mi := fun i => m.getD i 0
  let st := gMix st 0 4 8 12 (mi 0) (mi 1)
  let st := gMix st 1 5 9 13 (mi 2) (mi 3)
  let st := gMix st 2 6 10 14 (mi 4) (mi 5)
  let st := gMix st 3 7 11 15 (mi 6) (mi 7)
  let st := gMix st 0 5 10 15 (mi 8) (mi 9)
  let st := gMix st 1 6 11 12 (mi 10) (mi 11)
  let st := gMix st 2 7 8 13 (mi 12) (mi 13)
  gMix st 3 4 9 14 (mi 14) (mi 15)

def permuteMsg (m : List Nat) : List Nat := MSG_PERM.map fun i => m.getD i 0

/-- BLAKE3 compression; returns the full 16-word output state. -/
def compress (cv m : List Nat) (counter blockLen flags : Nat) : List Nat :=
  let st := cv.take 8 ++ IV.take 4 ++
    [counter % 4294967296, counter / 4294967296 % 4294967296, blockLen, flags]
  let st := roundFn st m
  let m := permuteMsg m
  let st := roundFn st m
  let m := permuteMsg m
  let st := roundFn st m
  let m := permuteMsg m
  let st := roundFn st m
  let m := permuteMsg m
  let st := roundFn st m
  let m := permuteMsg m
  let st := roundFn st m
  let m := permuteMsg m
  let st := roundFn st m
  ((List.range 8).map fun i => Nat.xor (st.getD i 0) (st.getD (i + 8) 0)) ++
  ((List.range 8).map fun i => Nat.xor (st.getD (i + 8) 0) (cv.getD i 0))

/-- Little-endian word from up to four bytes. -/
def leWord (bs : List Nat) : Nat := bs.foldr (fun b acc => b + 256 * acc) 0

/-- Sixteen little-endian message words of one (zero-padded) 64-byte
block. -/
def blockWords (bs : List Nat) : List Nat :=
  (List.range 16).map fun i => leWord ((bs.drop (4 * i)).take 4)

/-- Split into 64-byte blocks (fuel-driven so that the definition
computes by iota reduction; `fuel = bs.length` always suffices). -/
def splitBlocksF : Nat → List Nat → List (List Nat)
  | 0, _ => []
  | _, [] => []
  | fuel + 1, bs => bs.take 64 :: splitBlocksF fuel (bs.drop 64)

def CHUNK_START : Nat := 1
def CHUNK_END : Nat := 2
def PARENT : Nat := 4
def ROOT : Nat := 8

/-- Fold the blocks of one chunk into its chaining value; the last
block carries `CHUNK_END` plus `extraFlags` (`ROOT` for a root
chunk). -/
def chunkFold (counter : Nat) (extraFlags : Nat) :
    List Nat → Bool → List (List Nat) → List Nat
  | cv, _, [] => cv
  | cv, first, [b] =>
    compress cv (blockWords b) counter b.length
      ((if first then CHUNK_START else 0) + CHUNK_END + extraFlags)
  | cv, first, b :: rest =>
    chunkFold counter extraFlags
      ((compress cv (blockWords b) counter b.length
        (if first then CHUNK_START else 0)).take 8)
      false rest

def chunkBlocks (bytes : List Nat) : List (List Nat) :=
  if bytes.isEmpty then [[]] else splitBlocksF bytes.length bytes

/-- Chaining value of a non-root chunk. -/
def chunkCV (counter : Nat) (bytes : List Nat) : List Nat :=
  (chunkFold counter 0 IV true (chunkBlocks bytes)).take 8

/-- Full output state of a root chunk (single-chunk input). -/
def chunkRootWords (bytes : List Nat) : List Nat :=
  chunkFold 0 ROOT IV true (chunkBlocks bytes)

def parentCV (l r : List Nat) : List Nat :=
  (compress IV (l ++ r) 0 64 PARENT).take 8

def parentRootWords (l r : List Nat) : List Nat :=
  compress IV (l ++ r) 0 64 (PARENT + ROOT)

/-- Largest power of two that is at most `n` (for `n ≥ 1`). -/
def prevPow2 (n : Nat) : Nat := 2 ^ Nat.log2 n

/-- Chaining value of a subtree of chunks starting at chunk index
`chunkStart` (fuel-driven; `fuel = bytes.length` always suffices since
the tree depth is bounded by the chunk count). -/
def subtreeCV : Nat → Nat → List Nat → List Nat
  | 0, _, _ => IV
  | fuel + 1, chunkStart, bytes =>
    if bytes.length ≤ 1024 then chunkCV chunkStart bytes
    else
      let leftChunks := prevPow2 ((bytes.length - 1) / 1024)
      let leftLen := leftChunks * 1024
      parentCV (subtreeCV fuel chunkStart (bytes.take leftLen))
        (subtreeCV fuel (chunkStart + leftChunks) (bytes.drop leftLen))

/-- Sixteen-word root output state of BLAKE3. -/
def blake3Root (bytes : List Nat) : List Nat :=
  if bytes.length ≤ 1024 then chunkRootWords bytes
  else
    let leftChunks := prevPow2 ((bytes.length - 1) / 1024)
    let leftLen := leftChunks * 1024
    parentRootWords (subtreeCV bytes.length 0 (bytes.take leftLen))
      (subtreeCV bytes.length leftChunks (bytes.drop leftLen))

/-- The default 32-byte BLAKE3 digest (little-endian serialization of
the first eight root output words). -/
def blake3Bytes (bytes : List Nat) : List Nat :=
  let ws := blake3Root bytes
  ((List.range 8).map fun i => ws.getD i 0).flatMap fun w =>
    [w % 256, w / 256 % 256, w / 65536 % 256, w / 16777216 % 256]

def hexDigitC (n : Nat) : Char := ("0123456789abcdef").data.getD n 'x'

def hexOfBytes (bs : List Nat) : List Char :=
  bs.flatMap fun b => [hexDigitC (b / 16), hexDigitC (b % 16)]

/-- Model of `compute_hash` in `sqlite_index.rs`:
`blake3::hash(content.as_bytes()).to_hex()`. -/
def compute_hash (content : String) : String :=
  ⟨hexOfBytes (blake3Bytes (utf8Bytes content))⟩

/-! ## commands/gallery.rs: preview generation -/

def PREVIEW_LENGTH : Nat := 400

/-- Remove `**` / `__` pairs left to right, as `str::replace` with the
empty replacement (non-overlapping, leftmost-first). -/
def removePat2 (a b : Char) : List Char → List Char
  | [] => []
  | [c] => [c]
  | c1 :: c2 :: rest =>
    if c1 = a ∧ c2 = b then removePat2 a b rest
    else c1 :: removePat2 a b (c2 :: rest)

/-- Remove every backtick while toggling `in_code` (the inline-code
stripping loop of `clean_markdown`; the flag has no observable
effect). -/
def stripBackticks (cs : List Char) : List Char :=
  cs.filter (· ≠ '`')

/-- The `[text](url) -> text` rewriting loop of `clean_markdown`.
`skip` is the extra prefix length of the searched opener (`0` for
`[`, `1` for `![`); fuel-driven, `fuel = cs.length + 1` always
suffices since every rewrite shortens the string. -/
def linkLoop (opener : List Char) (skip : Nat) : Nat → List Char → List Char
  | 0, cs => cs
  | fuel + 1, cs =>
    match firstIdxOf opener cs with
    | none => cs
    | some start =>
      match firstIdxOf [']', '('] (cs.drop start) with
      | none => cs
      | some mid =>
        match firstIdxOf [')'] (cs.drop (start + mid)) with
        | none => cs
        | some e =>
          let text := ((cs.drop (start + 1 + skip)).take (mid - 1 - skip))
          let before := cs.take start
          let after := cs.drop (start + mid + e + 1)
          linkLoop opener skip fuel (before ++ text ++ after)

/-- Model of `clean_markdown` in `commands/gallery.rs`. -/
def clean_markdown (line : List Char) : List Char :=
  let result := line
  let result :=
    if result.head? = some '#' then trimStartL (result.dropWhile (· = '#'))
    else result
  let result :=
    if startsWithL ['-', ' '] result ∨ startsWithL ['*', ' '] result then result.drop 2
    else result
  let result :=
    match firstIdxOf ['.', ' '] result with
    | some pos =>
      if pos ≤ 3 ∧ (result.take pos).all (fun c => '0' ≤ c ∧ c ≤ '9') then
        result.drop (pos + 2)
      else result
    | none => result
  let result := if startsWithL ['>', ' '] result then result.drop 2 else result
  let result := removePat2 '*' '*' result
  let result := removePat2 '_' '_' result
  let result := stripBackticks result
  let result := linkLoop ['['] 0 (result.length + 1) result
  linkLoop ['!', '['] 1 (result.length + 1) result

/-- Push the characters of one cleaned line, truncating with `"..."`
once `max_len` characters have been emitted (`.inl` models the early
`return` of `generate_preview`). -/
def gpPush (maxLen : Nat) : List Char → Nat → List Char →
    (List Char) ⊕ (List Char × Nat)
  | result, cnt, [] => .inr (result, cnt)
  | result, cnt, c :: rest =>
    if maxLen ≤ cnt then .inl (result ++ ("...").data)
    else gpPush maxLen (result ++ [c]) (cnt + 1) rest

def gpLines (maxLen : Nat) : List (List Char) → List Char → Bool → Nat → List Char
  | [], result, _, _ => trimL result
  | line :: rest, result, inCode, cnt =>
    let t := trimL line
    if startsWithL ("```").data t then gpLines maxLen rest result (!inCode) cnt
    else if inCode then gpLines maxLen rest result inCode cnt
    else if t = [] then
      if result ≠ [] ∧ result.getLast? ≠ some ' ' then
        gpLines maxLen rest (result ++ [' ']) inCode (cnt + 1)
      else gpLines maxLen rest result inCode cnt
    else
      match gpPush maxLen result cnt (clean_markdown t) with
      | .inl done => done
      | .inr (result, cnt) =>
        if result.getLast? ≠ some ' ' then
          gpLines maxLen rest (result ++ [' ']) inCode (cnt + 1)
        else gpLines maxLen rest result inCode cnt

/-- Model of `generate_preview` in `commands/gallery.rs`. -/
def generate_preview (content : String) (maxLen : Nat) : String :=
  ⟨gpLines maxLen (linesL content.data) [] false 0⟩

/-! ## serde_json string-array serialization (for `tags_json`) -/

def jsonEscapeChar (c : Char) : List Char :=
  if c = '"' then ['\\', '"']
  else if c = '\\' then ['\\', '\\']
  else if c = '\n' then ['\\', 'n']
  else if c = '\r' then ['\\', 'r']
  else if c = '\t' then ['\\', 't']
  else if c.toNat = 8 then ['\\', 'b']
  else if c.toNat = 12 then ['\\', 'f']
  else if c.toNat < 32 then
    ('\\' :: 'u' :: '0' :: '0' :: [hexDigitC (c.toNat / 16), hexDigitC (c.toNat % 16)])
  else [c]

def jsonString (s : String) : List Char :=
  '"' :: s.data.flatMap jsonEscapeChar ++ ['"']

/-- Model of `serde_json::to_string` on a `&[String]`. -/
def jsonEncodeStrings (l : List String) : String :=
  ⟨'[' :: (List.intersperse [','] (l.map jsonString)).flatten ++ [']']⟩

/-! ## infrastructure/sqlite_index.rs: the index state

The four tables of the schema are modelled as lists of rows.  Each
`conn.execute` of the source is one sub-write; since
`upsert_note_with_gallery` opens no transaction (unlike
`rebuild_full`), SQLite runs every `execute` in autocommit mode, so a
step that succeeds is durable even when a later step fails.  A fault
schedule models environmentally failing `execute` calls (rusqlite
returns `Result` on every call: I/O errors, disk-full, ...). -/

structure NoteRow where
  uid : String
  title : String
  file_path : String
  content_hash : String
  created_at : String
  updated_at : String
  indexed_at : String
  preview : String
  tags_json : String
deriving DecidableEq, Repr

structure FtsRow where
  uid : String
  title : String
  content : String
deriving DecidableEq, Repr

structure BacklinkRow where
  source_uid : String
  target_title : String
  position : Nat
deriving DecidableEq, Repr

structure IndexState where
  notes : List NoteRow
  fts : List FtsRow
  backlinks : List BacklinkRow
  title_index : List (String × String)
deriving DecidableEq, Repr

def IndexState.empty : IndexState := ⟨[], [], [], []⟩

inductive IndexError where
  /-- a UNIQUE/PRIMARY KEY constraint violation reported by SQLite -/
  | uniqueViolation
  /-- an environmental SQLite/IO failure -/
  | env
deriving DecidableEq, Repr

structure IndexedNote where
  uid : String
  title : String
  content : String
  file_path : String
  content_hash : String
  created_at : DateTimeE
  updated_at : DateTimeE
deriving DecidableEq, Repr

/-- The `INSERT ... ON CONFLICT(uid) DO UPDATE` on `notes`:
`file_path` is declared UNIQUE, so the statement fails when a row of a
different uid holds the same path; on a uid conflict every column
except `created_at` is overwritten. -/
def notesUpsert (n : IndexedNote) (preview tagsJson now : String)
    (s : IndexState) : Except IndexError IndexState :=
  if s.notes.any fun r => r.uid ≠ n.uid ∧ r.file_path = n.file_path then
    .error .uniqueViolation
  else if s.notes.any fun r => r.uid = n.uid then
    .ok { s with notes := s.notes.map fun r =>
      if r.uid = n.uid then
        { r with title := n.title, file_path := n.file_path,
                 content_hash := n.content_hash,
                 updated_at := ⟨format_datetime n.updated_at⟩,
                 indexed_at := now, preview := preview, tags_json := tagsJson }
      else r }
  else
    .ok { s with notes := s.notes ++
      [⟨n.uid, n.title, n.file_path, n.content_hash,
        ⟨format_datetime n.created_at⟩, ⟨format_datetime n.updated_at⟩,
        now, preview, tagsJson⟩] }

def ftsDelete (uid : String) (s : IndexState) : Except IndexError IndexState :=
  .ok { s with fts := s.fts.filter (·.uid ≠ uid) }

def ftsInsert (uid title content : String) (s : IndexState) :
    Except IndexError IndexState :=
  .ok { s with fts := s.fts ++ [⟨uid, title, content⟩] }

def blDelete (uid : String) (s : IndexState) : Except IndexError IndexState :=
  .ok { s with backlinks := s.backlinks.filter (·.source_uid ≠ uid) }

def blInsert (uid target : String) (pos : Nat) (s : IndexState) :
    Except IndexError IndexState :=
  .ok { s with backlinks := s.backlinks ++ [⟨uid, target, pos⟩] }

def tiDelete (uid : String) (s : IndexState) : Except IndexError IndexState :=
  .ok { s with title_index := s.title_index.filter (·.2 ≠ uid) }

/-- `INSERT OR REPLACE INTO title_index` (primary key
`title_normalized`). -/
def tiInsert (tn uid : String) (s : IndexState) : Except IndexError IndexState :=
  .ok { s with title_index := s.title_index.filter (·.1 ≠ tn) ++ [(tn, uid)] }

/-- Run the `conn.execute` steps in order.  `sched i = true` makes the
`i`-th execute fail environmentally; the state accumulated so far is
returned alongside the error because no enclosing transaction exists
to roll it back. -/
def runSteps (sched : Nat → Bool) :
    Nat → List (IndexState → Except IndexError IndexState) → IndexState →
    Option IndexError × IndexState
  | _, [], s => (none, s)
  | i, f :: fs, s =>
    if sched i then (some .env, s)
    else
      match f s with
      | .error e => (some e, s)
      | .ok s' => runSteps sched (i + 1) fs s'

/-- The execute steps of `SqliteIndex::upsert_note_with_gallery`, in
source order: notes upsert, FTS delete, FTS insert, backlink delete,
one insert per extracted wiki link, title-index delete, title-index
insert. -/
def upsertSteps (n : IndexedNote) (preview : String) (tags : List String)
    (now : String) : List (IndexState → Except IndexError IndexState) :=
  [notesUpsert n preview (jsonEncodeStrings tags) now,
   ftsDelete n.uid,
   ftsInsert n.uid n.title n.content,
   blDelete n.uid] ++
  ((extract_wiki_links n.content).map fun l =>
    blInsert n.uid (toLowercaseRust l.title) l.position) ++
  [tiDelete n.uid,
   tiInsert (toLowercaseRust n.title) n.uid]

/-- Model of `SqliteIndex::upsert_note_with_gallery` with an explicit
fault schedule. -/
def upsertWithFaults (sched : Nat → Bool) (now : String) (n : IndexedNote)
    (preview : String) (tags : List String) (s : IndexState) :
    Option IndexError × IndexState :=
  runSteps sched 0 (upsertSteps n preview tags now) s

/-- Model of `SqliteIndex::upsert_note_with_gallery` in a fault-free
environment (only constraint violations can fail). -/
def upsert_note_with_gallery (now : String) (n : IndexedNote)
    (preview : String) (tags : List String) (s : IndexState) :
    Except IndexError IndexState :=
  match upsertWithFaults (fun _ => false) now n preview tags s with
  | (none, s') => .ok s'
  | (some e, _) => .error e

/-- Model of `SqliteIndex::delete_note` (deletes from title_index,
backlinks, notes_fts and notes, in that order). -/
def delete_note (uid : String) (s : IndexState) : IndexState :=
  { notes := s.notes.filter (·.uid ≠ uid),
    fts := s.fts.filter (·.uid ≠ uid),
    backlinks := s.backlinks.filter (·.source_uid ≠ uid),
    title_index := s.title_index.filter (·.2 ≠ uid) }

/-- Model of `SqliteIndex::needs_update`. -/
def needs_update (s : IndexState) (uid hash : String) : Bool :=
  match s.notes.find? (·.uid = uid) with
  | some r => r.content_hash ≠ hash
  | none => true

/-- Model of `SqliteIndex::get_path`. -/
def get_path (s : IndexState) (uid : String) : Option String :=
  (s.notes.find? (·.uid = uid)).map (·.file_path)

def isAbsolutePath (p : String) : Bool := p.data.head? = some '/'

def joinPath (base p : String) : String := ⟨base.data ++ '/' :: p.data⟩

def resolvePath (base p : String) : String :=
  if isAbsolutePath p then p else joinPath base p

/-- Delete every index row of one uid (the four deletes executed per
orphan inside `remove_orphans`). -/
def deleteAllByUid (uid : String) (s : IndexState) : IndexState :=
  delete_note uid s

/-- Model of `SqliteIndex::remove_orphans`: snapshot all `(uid, path)`
entries, then delete each whose resolved path does not exist;
returns the number removed. -/
def removeOrphansGo (fileExists : String → Bool) (base : String) :
    List (String × String) → IndexState → Nat → Nat × IndexState
  | [], s, removed => (removed, s)
  | (uid, p) :: rest, s, removed =>
    if fileExists (resolvePath base p) then
      removeOrphansGo fileExists base rest s removed
    else
      removeOrphansGo fileExists base rest (deleteAllByUid uid s) (removed + 1)

def remove_orphans (fileExists : String → Bool) (base : String)
    (s : IndexState) : Nat × IndexState :=
  removeOrphansGo fileExists base (s.notes.map fun r => (r.uid, r.file_path)) s 0

/-- The body of the `for note in notes` loop of
`SqliteIndex::rebuild_full` (plain `INSERT` into `notes`, so a
duplicate uid or path fails the transaction). -/
def rebuildStep (now : String) (s : IndexState) (n : IndexedNote) :
    Except IndexError IndexState :=
  if s.notes.any fun r => r.uid = n.uid ∨ r.file_path = n.file_path then
    .error .uniqueViolation
  else
    let row : NoteRow :=
      ⟨n.uid, n.title, n.file_path, n.content_hash,
       ⟨format_datetime n.created_at⟩, ⟨format_datetime n.updated_at⟩,
       now, "", "[]"⟩
    let s1 : IndexState := { s with notes := s.notes ++ [row] }
    let s2 : IndexState := { s1 with fts := s1.fts ++ [⟨n.uid, n.title, n.content⟩] }
    let s3 : IndexState := { s2 with backlinks :=
      (s2.backlinks.filter (·.source_uid ≠ n.uid)) ++
      (extract_wiki_links n.content).map fun l =>
        (⟨n.uid, toLowercaseRust l.title, l.position⟩ : BacklinkRow) }
    .ok { s3 with title_index :=
      s3.title_index.filter (·.1 ≠ toLowercaseRust n.title) ++
      [(toLowercaseRust n.title, n.uid)] }

/-- Model of `SqliteIndex::rebuild_full`: clears all tables and bulk
inserts inside one transaction, so an error leaves the original state
visible. -/
def rebuild_full (now : String) (ns : List IndexedNote) (s : IndexState) :
    Except IndexError IndexState :=
  match ns.foldlM (rebuildStep now) IndexState.empty with
  | .ok s' => .ok s'
  | .error e => .error e

/-- Model of `SqliteIndex::needs_rebuild`. -/
def needs_rebuild (s : IndexState) : Bool := s.notes.isEmpty

/-- Model of `SqliteIndex::find_by_title`. -/
def find_by_title (s : IndexState) (title : String) : Option String :=
  (s.title_index.find? (·.1 = toLowercaseRust title)).map (·.2)

/-! ## infrastructure/hybrid_repository.rs: sync_index

The filesystem is a snapshot: `mdFiles` is what
`storage.list_files(&base_dir, "md")` returns (paths with their
contents, in directory order; `Storage::load` succeeds on exactly
these), and `extraPaths` are further paths for which `Path::exists`
holds (non-md files, files outside the listing). -/

structure Fs where
  mdFiles : List (String × String)
  extraPaths : List String

def Fs.fileExists (fs : Fs) (p : String) : Bool :=
  (fs.mdFiles.any (·.1 = p)) ∨ fs.extraPaths.contains p

structure SyncResult where
  added : Nat
  updated : Nat
  removed : Nat
deriving DecidableEq, Repr

/-- The `for path in files` loop of `HybridRepository::sync_index`.
A file whose parse fails is skipped; `needs_update` decides whether
the note is (re)indexed; every performed upsert increments the single
`updated` counter of the source. -/
def syncLoop (now : String) :
    List (String × String) → IndexState → Nat →
    Except IndexError (IndexState × Nat)
  | [], s, upd => .ok (s, upd)
  | (path, content) :: rest, s, upd =>
    match Note.from_file_content content with
    | .error _ => syncLoop now rest s upd
    | .ok note =>
      let hash := compute_hash content
      if needs_update s note.metadata.uid hash then
        let title := (note.extract_heading).getD note.metadata.uid
        let indexed : IndexedNote :=
          ⟨note.metadata.uid, title, note.content, path, hash,
           note.metadata.created_at, note.metadata.updated_at⟩
        let preview := generate_preview note.content PREVIEW_LENGTH
        let tags := note.all_tags
        match upsert_note_with_gallery now indexed preview tags s with
        | .error e => .error e
        | .ok s' => syncLoop now rest s' (upd + 1)
      else syncLoop now rest s upd

/-- Model of `HybridRepository::sync_index`.  The returned `added`
field is the never-incremented `let added = 0` of the source. -/
def sync_index (fs : Fs) (baseDir : String) (now : String)
    (s : IndexState) : Except IndexError (SyncResult × IndexState) :=
  match syncLoop now fs.mdFiles s 0 with
  | .error e => .error e
  | .ok (s1, updated) =>
    let (removed, s2) := remove_orphans fs.fileExists baseDir s1
    .ok (⟨0, updated, removed⟩, s2)

/-! ## services/search_service.rs

The nucleo matcher is an external crate; its two entry points used by
the service are taken as parameters: `score q hay` models
`Pattern::score` (fuzzy score of query `q` against haystack `hay`,
`none` when the pattern does not match) and `indicesF q hay` models
`Pattern::indices` (the matched character positions).  Every claim
below holds for all instantiations of these parameters.  Files are a
map from path to raw bytes. -/

def MAX_CONTENT_SEARCH_BYTES : Nat := 4096

def PREVIEW_CONTEXT_CHARS : Nat := 30

def DEFAULT_LIMIT : Nat := 50

structure NoteListItem where
  uid : String
  title : String
  path : String
  updated_at : String
deriving DecidableEq, Repr

structure MatchRange where
  start : Nat
  stop : Nat
deriving DecidableEq, Repr

structure ContentPreview where
  text : String
  match_start : Nat
  match_end : Nat
deriving DecidableEq, Repr

structure SearchResult where
  uid : String
  title : String
  score : Nat
  title_matches : List MatchRange
  content_preview : Option ContentPreview
deriving DecidableEq, Repr

inductive SearchError where
  | repository
deriving DecidableEq, Repr

/-- Model of `SearchService::skip_front_matter` (byte-level): when the
content opens with `---`, skip past the first `\n---` window found
after offset 3, but only when something follows it. -/
def skip_front_matter (content : List Nat) : List Nat :=
  if startsWithL [45, 45, 45] content then
    match firstIdxOf [10, 45, 45, 45] (content.drop 3) with
    | some endPos =>
      let skipTo := 3 + endPos + 4
      if skipTo < content.length then content.drop skipTo else content
    | none => content
  else content

/-- Is `bs` one complete, valid UTF-8 scalar-value encoding? Returns
the decoded character and the remaining bytes. -/
def utf8DecodeOne : List Nat → Option (Char × List Nat)
  | b :: rest =>
    if b < 0x80 then some (Char.ofNat b, rest)
    else if 0xC2 ≤ b ∧ b ≤ 0xDF then
      match rest with
      | b1 :: rest1 =>
        if 0x80 ≤ b1 ∧ b1 ≤ 0xBF then
          some (Char.ofNat ((b - 0xC0) * 64 + (b1 - 0x80)), rest1)
        else none
      | [] => none
    else if 0xE0 ≤ b ∧ b ≤ 0xEF then
      match rest with
      | b1 :: b2 :: rest2 =>
        let lo1 := if b = 0xE0 then 0xA0 else 0x80
        let hi1 := if b = 0xED then 0x9F else 0xBF
        if lo1 ≤ b1 ∧ b1 ≤ hi1 ∧ 0x80 ≤ b2 ∧ b2 ≤ 0xBF then
          some (Char.ofNat (((b - 0xE0) * 64 + (b1 - 0x80)) * 64 + (b2 - 0x80)), rest2)
        else none
      | _ => none
    else if 0xF0 ≤ b ∧ b ≤ 0xF4 then
      match rest with
      | b1 :: b2 :: b3 :: rest3 =>
        let lo1 := if b = 0xF0 then 0x90 else 0x80
        let hi1 := if b = 0xF4 then 0x8F else 0xBF
        if lo1 ≤ b1 ∧ b1 ≤ hi1 ∧ 0x80 ≤ b2 ∧ b2 ≤ 0xBF ∧ 0x80 ≤ b3 ∧ b3 ≤ 0xBF then
          some (Char.ofNat ((((b - 0xF0) * 64 + (b1 - 0x80)) * 64 + (b2 - 0x80)) * 64
            + (b3 - 0x80)), rest3)
        else none
      | _ => none
    else none
  | [] => none

/-- Longest valid UTF-8 prefix, decoded (the `valid_up_to` recovery of
`match_content`); fuel-driven so the definition computes by iota
reduction, `fuel = bs.length` always suffices. -/
def utf8DecodePrefixF : Nat → List Nat → List Char
  | 0, _ => []
  | fuel + 1, bs =>
    match utf8DecodeOne bs with
    | some (c, rest) => c :: utf8DecodePrefixF fuel rest
    | none => []

def utf8DecodePrefix (bs : List Nat) : List Char :=
  utf8DecodePrefixF bs.length bs

/-- Merge sorted match indices into half-open ranges of consecutive
runs; model of `SearchService::extract_match_ranges` after the sort. -/
def mergeIndices : Nat → Nat → List Nat → List MatchRange
  | start, stop, [] => [⟨start, stop + 1⟩]
  | start, stop, idx :: rest =>
    if idx = stop + 1 then mergeIndices start idx rest
    else ⟨start, stop + 1⟩ :: mergeIndices idx idx rest

def sortNat (l : List Nat) : List Nat :=
  l.foldl (fun acc x =>
    let rec ins (x : Nat) : List Nat → List Nat
      | [] => [x]
      | y :: ys => if y ≤ x then y :: ins x ys else x :: y :: ys
    ins x acc) []

/-- Model of `SearchService::extract_match_ranges`. -/
def extract_match_ranges (indicesF : String → List Nat) (text : String) :
    List MatchRange :=
  match sortNat (indicesF text) with
  | [] => []
  | idx :: rest => mergeIndices idx idx rest

/-- Count the leading run of consecutive indices that stay below
`previewEnd` (the `match_len` loop of `generate_preview` in
`search_service.rs`). -/
def runLen (previewEnd : Nat) : Nat → List Nat → Nat
  | _, [] => 1
  | prev, idx :: rest =>
    if idx = prev + 1 ∧ idx < previewEnd then 1 + runLen previewEnd idx rest
    else 1

/-- Model of `SearchService::generate_preview` (the content-preview
builder around the first match). -/
def searchPreview (indicesF : String → List Nat) (content : String) :
    Option ContentPreview :=
  match sortNat (indicesF content) with
  | [] => none
  | first :: rest =>
    let chars := content.data
    let previewStart := first - PREVIEW_CONTEXT_CHARS
    let previewEnd := min (first + PREVIEW_CONTEXT_CHARS + 1) chars.length
    let previewChars := (chars.drop previewStart).take (previewEnd - previewStart)
    let matchInPreview := first - previewStart
    let matchLen := runLen previewEnd first rest
    let pre := if 0 < previewStart then ("...").data else []
    let suf := if previewEnd < chars.length then ("...").data else []
    some ⟨⟨pre ++ previewChars ++ suf⟩,
      matchInPreview + pre.length, matchInPreview + pre.length + matchLen⟩

/-- Model of `SearchService::match_content` on the raw bytes of an
opened file (caller handles the open failure). -/
def match_content (score : String → Option Nat) (indicesF : String → List Nat)
    (bytes : List Nat) : Option Nat × Option ContentPreview :=
  if bytes.length = 0 then (none, none)
  else
    let content := skip_front_matter bytes
    let searchBytes := content.take MAX_CONTENT_SEARCH_BYTES
    let contentStr : String := ⟨utf8DecodePrefix searchBytes⟩
    if contentStr.data.isEmpty then (none, none)
    else
      match score contentStr with
      | none => (none, none)
      | some sc =>
        if sc = 0 then (none, none)
        else (some sc, searchPreview indicesF contentStr)

/-- Model of `SearchService::match_note`. -/
def match_note (score : String → Option Nat) (indicesF : String → List Nat)
    (fileBytes : String → Option (List Nat)) (note : NoteListItem) :
    Option SearchResult :=
  let titleScore := score note.title
  let contentRes :=
    match fileBytes note.path with
    | none => (none, none)
    | some bytes => match_content score indicesF bytes
  let titlePts := (titleScore.getD 0) * 2
  let contentPts := (contentRes.1).getD 0
  let total := titlePts + contentPts
  if total = 0 then none
  else some ⟨note.uid, note.title, total,
    extract_match_ranges indicesF note.title, contentRes.2⟩

def insertByScore (x : SearchResult) : List SearchResult → List SearchResult
  | [] => [x]
  | y :: ys => if x.score ≤ y.score then y :: insertByScore x ys else x :: y :: ys

/-- Stable descending sort by score, as
`results.sort_by(|a, b| b.score.cmp(&a.score))`. -/
def sortByScoreDesc (l : List SearchResult) : List SearchResult :=
  l.foldl (fun acc x => insertByScore x acc) []

/-- Model of `SearchService::search`.  `listAll` stands for
`self.repository.list_all()`. -/
def search (score : String → String → Option Nat)
    (indicesF : String → String → List Nat)
    (fileBytes : String → Option (List Nat))
    (listAll : Except SearchError (List NoteListItem))
    (query : String) (limit : Option Nat) :
    Except SearchError (List SearchResult) :=
  let lim := min (limit.getD DEFAULT_LIMIT) 100
  let q := trimRust query
  if q.data.isEmpty then .ok []
  else
    match listAll with
    | .error e => .error e
    | .ok notes =>
      let results := notes.filterMap (match_note (score q) (indicesF q) fileBytes)
      .ok ((sortByScoreDesc results).take lim)

/-! ## Claim C7 -/

/-- C7: for every limit, `search` with an empty (after trimming)
query returns `Ok` with the empty list rather than an error, and for
every query the returned list has at most `min (limit or 50) 100`
entries.  This holds for every nucleo scorer, filesystem and
repository listing. -/
theorem c7_search_empty_query_ok_and_cap
    (score : String → String → Option Nat)
    (indicesF : String → String → List Nat)
    (fileBytes : String → Option (List Nat))
    (listAll : Except SearchError (List NoteListItem))
    (query : String) (limit : Option Nat) :
    (trimRust query = "" →
      search score indicesF fileBytes listAll query limit = .ok []) ∧
    (∀ res, search score indicesF fileBytes listAll query limit = .ok res →
      res.length ≤ min (limit.getD 50) 100) := by
  constructor
  · intro h
    unfold search
    simp [h]
  · intro res h
    unfold search at h
    by_cases he : (trimRust query).data.isEmpty
    · simp [he] at h
      subst h
      simp
    · simp [he] at h
      cases listAll with
      | error e => simp at h
      | ok notes =>
        simp at h
        subst h
        calc (List.take (min (limit.getD DEFAULT_LIMIT) 100)
                (sortByScoreDesc (notes.filterMap
                  (match_note (score (trimRust query)) (indicesF (trimRust query)) fileBytes)))).length
            ≤ min (limit.getD DEFAULT_LIMIT) 100 := List.length_take_le _ _
          _ ≤ min (limit.getD 50) 100 := le_of_eq rfl

/-- Witness for C7: the all-whitespace query `"  "` with limit 7
returns `Ok []` even against an erroring repository listing. -/
theorem c7_witness :
    search (fun _ _ => some 1) (fun _ _ => []) (fun _ => none)
      (.error .repository) ("  ") (some 7) = .ok [] :=
  (c7_search_empty_query_ok_and_cap (fun _ _ => some 1) (fun _ _ => [])
    (fun _ => none) (.error .repository) ("  ") (some 7)).1 (by decide)

/-! ## Claim C10 -/

/-- C10: `search` trims the query first, so a query of only
whitespace behaves exactly like the empty query: it returns `Ok []`
for every repository listing (including an erroring one) and every
filesystem — the listing is never consulted and no file is opened. -/
theorem c10_whitespace_query_empty_result
    (score : String → String → Option Nat)
    (indicesF : String → String → List Nat)
    (fileBytes : String → Option (List Nat))
    (listAll : Except SearchError (List NoteListItem))
    (query : String) (limit : Option Nat)
    (hws : ∀ c ∈ query.data, rustIsWhitespace c) :
    search score indicesF fileBytes listAll query limit = .ok [] := by
  have htrim : trimL query.data = [] := by
    have h1 : trimStartL query.data = [] := by
      simpa [trimStartL, List.dropWhile_eq_nil_iff] using hws
    simp [trimL, h1, trimEndL]
  unfold search
  simp [trimRust, htrim]

/-- Witness for C10: the query of a space, a tab and an ideographic
space returns `Ok []` against an erroring listing. -/
theorem c10_witness :
    search (fun _ _ => some 1) (fun _ _ => []) (fun _ => none)
      (.error .repository) (" \t　") none = .ok [] :=
  c10_whitespace_query_empty_result (fun _ _ => some 1) (fun _ _ => [])
    (fun _ => none) (.error .repository) (" \t　") none (by decide)

/-! ## Claim C8 -/

theorem skip_front_matter_ne_nil {b : List Nat} (hb : b ≠ []) :
    skip_front_matter b ≠ [] := by
  unfold skip_front_matter
  by_cases h1 : startsWithL [45, 45, 45] b = true
  · simp only [h1, if_pos]
    cases hfind : firstIdxOf [10, 45, 45, 45] (b.drop 3) with
    | none => simpa using hb
    | some endPos =>
      simp only
      by_cases h2 : 3 + endPos + 4 < b.length
      · simp only [h2, if_pos]
        intro hc
        have := congrArg List.length hc
        simp [List.length_drop] at this
        omega
      · simpa [h2] using hb
  · simpa [h1] using hb

/-- C8: body matching considers only the first 4096 bytes of the
content that follows the front-matter block.  Part one: the body
score and body preview of `match_content` depend only on that byte
window — two files agreeing on it produce identical results, so a
match occurring solely beyond the window cannot contribute.  Part
two: whenever the scorer finds no (positive-score) match in the
decoded window, the note receives no body score and no body
preview. -/
theorem c8_content_window_contract
    (score : String → Option Nat) (indicesF : String → List Nat) :
    (∀ b₁ b₂ : List Nat,
      (skip_front_matter b₁).take MAX_CONTENT_SEARCH_BYTES =
        (skip_front_matter b₂).take MAX_CONTENT_SEARCH_BYTES →
      match_content score indicesF b₁ = match_content score indicesF b₂) ∧
    (∀ b : List Nat,
      (score ⟨utf8DecodePrefix ((skip_front_matter b).take MAX_CONTENT_SEARCH_BYTES)⟩ = none ∨
       score ⟨utf8DecodePrefix ((skip_front_matter b).take MAX_CONTENT_SEARCH_BYTES)⟩ = some 0) →
      match_content score indicesF b = (none, none)) := by
  constructor
  · intro b₁ b₂ hwin
    by_cases h1 : b₁ = []
    · subst h1
      have : (skip_front_matter b₂).take MAX_CONTENT_SEARCH_BYTES = [] := by
        simpa [skip_front_matter, startsWithL] using hwin.symm
      have h2 : skip_front_matter b₂ = [] := by
        rcases List.take_eq_nil_iff.mp this with h | h
        · exact absurd h (by simp [MAX_CONTENT_SEARCH_BYTES])
        · exact h
      have hb2 : b₂ = [] := by
        by_contra hne
        exact skip_front_matter_ne_nil hne h2
      subst hb2
      rfl
    · by_cases h2 : b₂ = []
      · subst h2
        have : (skip_front_matter b₁).take MAX_CONTENT_SEARCH_BYTES = [] := by
          simpa [skip_front_matter, startsWithL] using hwin
        have h3 : skip_front_matter b₁ = [] := by
          rcases List.take_eq_nil_iff.mp this with h | h
          · exact absurd h (by simp [MAX_CONTENT_SEARCH_BYTES])
          · exact h
        exact absurd h3 (skip_front_matter_ne_nil h1)
      · unfold match_content
        have hl1 : b₁.length ≠ 0 := by simpa using fun h => h1 (List.length_eq_zero.mp h)
        have hl2 : b₂.length ≠ 0 := by simpa using fun h => h2 (List.length_eq_zero.mp h)
        simp only [hl1, hl2, if_neg, hwin]
  · intro b hsc
    unfold match_content
    by_cases hb : b.length = 0
    · simp [hb]
    · simp only [hb, if_neg, if_false]
      by_cases hemp :
          (utf8DecodePrefix ((skip_front_matter b).take MAX_CONTENT_SEARCH_BYTES)).isEmpty
      · simp [hemp]
      · rcases hsc with h | h <;> simp [hemp, h]

/-- Witness for C8: two concrete files with different front matter but
the same post-front-matter window produce identical body results, and
a scorer with no match yields no body score or preview. -/
theorem c8_witness :
    ((skip_front_matter (utf8Bytes ("---\nA\n---\nHELLO"))).take MAX_CONTENT_SEARCH_BYTES =
      (skip_front_matter (utf8Bytes ("---\nBB\n---\nHELLO"))).take MAX_CONTENT_SEARCH_BYTES) ∧
    match_content (fun _ => some 3) (fun _ => [0])
        (utf8Bytes ("---\nA\n---\nHELLO")) =
      match_content (fun _ => some 3) (fun _ => [0])
        (utf8Bytes ("---\nBB\n---\nHELLO")) ∧
    match_content (fun _ => none) (fun _ => [])
        (utf8Bytes ("---\nA\n---\nHELLO")) = (none, none) := by
  refine ⟨by decide, ?_, ?_⟩
  · exact (c8_content_window_contract (fun _ => some 3) (fun _ => [0])).1
      (utf8Bytes ("---\nA\n---\nHELLO")) (utf8Bytes ("---\nBB\n---\nHELLO")) (by decide)
  · exact (c8_content_window_contract (fun _ => none) (fun _ => [])).2
      (utf8Bytes ("---\nA\n---\nHELLO")) (Or.inl (by decide))

/-! ## Claim C1 -/

/-- C1: `upsert_note_with_gallery` is not internally atomic.  The
function wraps its sub-writes in no transaction (unlike
`rebuild_full`), so each successful `conn.execute` commits on its own:
when the FTS `INSERT` (execute index 2) fails after the `notes` upsert
succeeded, the call returns an error while the new `notes` row is
already visible and the old FTS row is already deleted — the index
state is changed on error, refuting the all-or-nothing claim. -/
theorem c1_upsert_not_atomic :
    upsertWithFaults (fun i => i = 2) ("2024-06-01 00:00:00")
      ⟨"u1", "T2", "new body", "/notes/a.md", "h2",
       ⟨2024, 1, 2, 3, 4, 5⟩, ⟨2024, 1, 2, 3, 4, 5⟩⟩
      ("prev") []
      ⟨[⟨"u1", "T1", "/notes/a.md", "h1", "2020-01-01 00:00:00",
         "2020-01-01 00:00:00", "2020-01-01 00:00:00", "p0", "[]"⟩],
       [⟨"u1", "T1", "old body"⟩], [], [("t1", "u1")]⟩ =
      (some .env,
       ⟨[⟨"u1", "T2", "/notes/a.md", "h2", "2020-01-01 00:00:00",
          "2024-01-02 03:04:05", "2024-06-01 00:00:00", "prev", "[]"⟩],
        [], [], [("t1", "u1")]⟩) ∧
    (some IndexError.env,
     (⟨[⟨"u1", "T2", "/notes/a.md", "h2", "2020-01-01 00:00:00",
         "2024-01-02 03:04:05", "2024-06-01 00:00:00", "prev", "[]"⟩],
       [], [], [("t1", "u1")]⟩ : IndexState)).2 ≠
      (⟨[⟨"u1", "T1", "/notes/a.md", "h1", "2020-01-01 00:00:00",
         "2020-01-01 00:00:00", "2020-01-01 00:00:00", "p0", "[]"⟩],
        [⟨"u1", "T1", "old body"⟩], [], [("t1", "u1")]⟩ : IndexState) := by
  exact ⟨rfl, by decide⟩

/-! ## Claim C9 -/

/-- The four index mutations named by the claim; `upsert` carries a
fault schedule (C1 shows partial failures leave partial states, so the
invariant is proved over those states too), `rebuild` is transactional
(its error leaves the state unchanged). -/
inductive IndexOp where
  | upsert (sched : Nat → Bool) (now : String) (n : IndexedNote)
      (preview : String) (tags : List String)
  | del (uid : String)
  | orphans (fileExists : String → Bool) (base : String)
  | rebuild (now : String) (ns : List IndexedNote)

def applyOp (s : IndexState) : IndexOp → IndexState
  | .upsert sched now n preview tags => (upsertWithFaults sched now n preview tags s).2
  | .del uid => delete_note uid s
  | .orphans fe base => (remove_orphans fe base s).2
  | .rebuild now ns =>
    match rebuild_full now ns s with
    | .ok s' => s'
    | .error _ => s

def applyOps (s : IndexState) (ops : List IndexOp) : IndexState :=
  ops.foldl applyOp s

/-- The invariant: the `title_index` table holds at most one row per
note uid. -/
def TitleIndexUnique (s : IndexState) : Prop :=
  (s.title_index.map Prod.snd).Nodup

instance (s : IndexState) : Decidable (TitleIndexUnique s) := by
  unfold TitleIndexUnique; infer_instance

theorem nodupSnd_filter {l : List (String × String)} (p : String × String → Bool)
    (h : (l.map Prod.snd).Nodup) : ((l.filter p).map Prod.snd).Nodup :=
  ((l.filter_sublist).map Prod.snd).nodup h

theorem runSteps_ti_unchanged (sched : Nat → Bool)
    (l : List (IndexState → Except IndexError IndexState))
    (h : ∀ f ∈ l, ∀ s s', f s = .ok s' → s'.title_index = s.title_index) :
    ∀ i s, (runSteps sched i l s).2.title_index = s.title_index := by
  induction l with
  | nil => intro i s; simp [runSteps]
  | cons f fs ih =>
    intro i s
    unfold runSteps
    by_cases hs : sched i
    · simp [hs]
    · simp only [hs, if_false, Bool.false_eq_true]
      cases hf : f s with
      | error e => simp
      | ok s' =>
        simp only
        rw [ih (fun g hg => h g (List.mem_cons_of_mem f hg)) (i + 1) s']
        exact h f (List.mem_cons_self f fs) s s' hf

theorem runSteps_append_err (sched : Nat → Bool)
    (l₁ l₂ : List (IndexState → Except IndexError IndexState)) :
    ∀ i s e s₁, runSteps sched i l₁ s = (some e, s₁) →
      runSteps sched i (l₁ ++ l₂) s = (some e, s₁) := by
  induction l₁ with
  | nil => intro i s e s₁ h; simp [runSteps] at h
  | cons f fs ih =>
    intro i s e s₁ h
    rw [List.cons_append]
    rw [runSteps] at h
    rw [runSteps]
    by_cases hs : sched i
    · simpa [hs] using h
    · simp only [hs, Bool.false_eq_true, if_false] at h ⊢
      cases hf : f s with
      | error e' =>
        rw [hf] at h
        simp only at h ⊢
        exact h
      | ok s' =>
        rw [hf] at h
        simp only at h ⊢
        exact ih (i + 1) s' e s₁ h

theorem runSteps_append_ok (sched : Nat → Bool)
    (l₁ l₂ : List (IndexState → Except IndexError IndexState)) :
    ∀ i s s₁, runSteps sched i l₁ s = (none, s₁) →
      runSteps sched i (l₁ ++ l₂) s = runSteps sched (i + l₁.length) l₂ s₁ := by
  induction l₁ with
  | nil =>
    intro i s s₁ h
    simp only [runSteps] at h
    injection h with h1 h2
    subst h2
    simp
  | cons f fs ih =>
    intro i s s₁ h
    rw [List.cons_append]
    rw [runSteps] at h
    rw [runSteps]
    by_cases hs : sched i
    · simp [hs] at h
    · simp only [hs, Bool.false_eq_true, if_false] at h ⊢
      cases hf : f s with
      | error e' =>
        rw [hf] at h
        simp at h
      | ok s' =>
        rw [hf] at h
        simp only at h ⊢
        rw [ih (i + 1) s' s₁ h]
        have harith : i + 1 + fs.length = i + (f :: fs).length := by
          simp only [List.length_cons]
          omega
        rw [harith]

theorem tiu_two_title_steps (sched : Nat → Bool) (i : Nat) (uid tn : String)
    (s : IndexState) (h : TitleIndexUnique s) :
    TitleIndexUnique (runSteps sched i [tiDelete uid, tiInsert tn uid] s).2 := by
  by_cases h1 : sched i
  · have : (runSteps sched i [tiDelete uid, tiInsert tn uid] s).2 = s := by
      simp [runSteps, h1]
    rw [this]; exact h
  · set s₂ : IndexState := { s with title_index := s.title_index.filter (·.2 ≠ uid) }
      with hs₂
    have h₂ : TitleIndexUnique s₂ := nodupSnd_filter _ h
    have hnu : uid ∉ s₂.title_index.map Prod.snd := by
      intro hmem
      rcases List.mem_map.mp hmem with ⟨x, hx, hxe⟩
      have := List.of_mem_filter hx
      simp only [ne_eq, decide_not, Bool.not_eq_eq_eq_not, Bool.not_true,
        decide_eq_false_iff_not] at this
      exact this hxe
    by_cases h2 : sched (i + 1)
    · have : (runSteps sched i [tiDelete uid, tiInsert tn uid] s).2 = s₂ := by
        simp [runSteps, h1, h2, tiDelete, hs₂]
      rw [this]; exact h₂
    · have hrun : (runSteps sched i [tiDelete uid, tiInsert tn uid] s).2 =
          { s₂ with title_index := s₂.title_index.filter (·.1 ≠ tn) ++ [(tn, uid)] } := by
        simp [runSteps, h1, h2, tiDelete, tiInsert, hs₂]
      rw [hrun]
      unfold TitleIndexUnique
      simp only [List.map_append, List.map_cons, List.map_nil]
      rw [List.nodup_append]
      refine ⟨nodupSnd_filter _ h₂, List.nodup_singleton _, ?_⟩
      intro a ha hb
      simp only [List.mem_singleton] at hb
      subst hb
      apply hnu
      rcases List.mem_map.mp ha with ⟨x, hx, hxe⟩
      exact List.mem_map.mpr ⟨x, (List.filter_sublist _).mem hx, hxe⟩

theorem upsert_preserves_tiu (sched : Nat → Bool) (now : String)
    (n : IndexedNote) (preview : String) (tags : List String)
    (s : IndexState) (h : TitleIndexUnique s) :
    TitleIndexUnique (upsertWithFaults sched now n preview tags s).2 := by
  have hpre : ∀ f ∈ ([notesUpsert n preview (jsonEncodeStrings tags) now,
      ftsDelete n.uid, ftsInsert n.uid n.title n.content, blDelete n.uid] ++
      ((extract_wiki_links n.content).map fun l =>
        blInsert n.uid (toLowercaseRust l.title) l.position)),
      ∀ s s', f s = .ok s' → s'.title_index = s.title_index := by
    intro f hf s₀ s₁ hok
    rcases List.mem_append.mp hf with hf | hf
    · simp only [List.mem_cons, List.mem_singleton] at hf
      rcases hf with rfl | rfl | rfl | rfl | hf
      · unfold notesUpsert at hok
        split at hok
        · exact absurd hok (by simp)
        · split at hok <;> (injection hok with hok; rw [← hok])
      · unfold ftsDelete at hok; injection hok with hok; rw [← hok]
      · unfold ftsInsert at hok; injection hok with hok; rw [← hok]
      · unfold blDelete at hok; injection hok with hok; rw [← hok]
      · exact absurd hf (List.not_mem_nil f)
    · rcases List.mem_map.mp hf with ⟨l, _, rfl⟩
      unfold blInsert at hok; injection hok with hok; rw [← hok]
  unfold upsertWithFaults upsertSteps
  rw [List.append_assoc]
  cases hrun : runSteps sched 0 ([notesUpsert n preview (jsonEncodeStrings tags) now,
      ftsDelete n.uid, ftsInsert n.uid n.title n.content, blDelete n.uid] ++
      ((extract_wiki_links n.content).map fun l =>
        blInsert n.uid (toLowercaseRust l.title) l.position)) s with
  | mk oe s₁ =>
    have hti₁ : s₁.title_index = s.title_index := by
      have := runSteps_ti_unchanged sched _ hpre 0 s
      rw [hrun] at this
      exact this
    have h₁ : TitleIndexUnique s₁ := by unfold TitleIndexUnique; rw [hti₁]; exact h
    rw [← List.append_assoc]
    cases oe with
    | some e =>
      rw [runSteps_append_err sched _ _ 0 s e s₁ hrun]
      exact h₁
    | none =>
      rw [runSteps_append_ok sched _ _ 0 s s₁ hrun]
      exact tiu_two_title_steps sched _ n.uid (toLowercaseRust n.title) s₁ h₁

theorem delete_note_preserves_tiu (uid : String) (s : IndexState)
    (h : TitleIndexUnique s) : TitleIndexUnique (delete_note uid s) :=
  nodupSnd_filter _ h

theorem removeOrphansGo_preserves_tiu (fe : String → Bool) (base : String) :
    ∀ entries s removed, TitleIndexUnique s →
      TitleIndexUnique (removeOrphansGo fe base entries s removed).2 := by
  intro entries
  induction entries with
  | nil => intro s removed h; exact h
  | cons e rest ih =>
    intro s removed h
    obtain ⟨uid, p⟩ := e
    unfold removeOrphansGo
    by_cases hex : fe (resolvePath base p)
    · simpa [hex] using ih s removed h
    · simpa [hex] using
        ih (deleteAllByUid uid s) (removed + 1)
          (delete_note_preserves_tiu uid s h)

/-- Invariant maintained through `rebuild_full`'s bulk insert: the
title index is uid-unique and every title-index uid is a notes uid. -/
def RebuildInv (s : IndexState) : Prop :=
  TitleIndexUnique s ∧
  ∀ u ∈ s.title_index.map Prod.snd, u ∈ s.notes.map NoteRow.uid

theorem rebuildStep_inv (now : String) (s : IndexState) (n : IndexedNote)
    (s' : IndexState) (h : RebuildInv s)
    (hok : rebuildStep now s n = .ok s') : RebuildInv s' := by
  unfold rebuildStep at hok
  split at hok
  · exact absurd hok (by simp)
  · rename_i hguard
    injection hok with hok
    subst hok
    obtain ⟨htiu, hsub⟩ := h
    have hnotuid : n.uid ∉ s.notes.map NoteRow.uid := by
      intro hmem
      rcases List.mem_map.mp hmem with ⟨r, hr, hre⟩
      exact hguard (List.any_eq_true.mpr ⟨r, hr, by simp [hre]⟩)
    constructor
    · unfold TitleIndexUnique
      simp only [List.map_append, List.map_cons, List.map_nil]
      rw [List.nodup_append]
      refine ⟨nodupSnd_filter _ htiu, List.nodup_singleton _, ?_⟩
      intro a ha hb
      simp only [List.mem_singleton] at hb
      subst hb
      apply hnotuid
      rcases List.mem_map.mp ha with ⟨x, hx, hxe⟩
      exact hsub _ (List.mem_map.mpr ⟨x, (List.filter_sublist _).mem hx, hxe⟩)
    · intro u hu
      simp only [List.map_append, List.mem_append, List.map_cons, List.map_nil,
        List.mem_singleton, List.mem_cons] at hu ⊢
      rcases hu with hu | hu
      · rcases List.mem_map.mp hu with ⟨x, hx, hxe⟩
        exact Or.inl (hsub _ (List.mem_map.mpr ⟨x, (List.filter_sublist _).mem hx, hxe⟩))
      · rcases hu with rfl | hu
        · exact Or.inr (Or.inl rfl)
        · exact absurd hu (List.not_mem_nil u)

theorem rebuild_foldl_inv (now : String) :
    ∀ ns s, RebuildInv s → ∀ s', List.foldlM (rebuildStep now) s ns = .ok s' →
      RebuildInv s' := by
  intro ns
  induction ns with
  | nil =>
    intro s h s' hok
    simp only [List.foldlM_nil, pure, Except.pure] at hok
    injection hok with hok
    rwa [← hok]
  | cons n rest ih =>
    intro s h s' hok
    simp only [List.foldlM_cons] at hok
    cases hstep : rebuildStep now s n with
    | error e =>
      rw [hstep] at hok
      simp only [bind, Except.bind] at hok
      exact absurd hok (by simp)
    | ok s₁ =>
      rw [hstep] at hok
      simp only [bind, Except.bind] at hok
      exact ih s₁ (rebuildStep_inv now s n s₁ h hstep) s' hok

theorem applyOp_preserves_tiu (s : IndexState) (op : IndexOp)
    (h : TitleIndexUnique s) : TitleIndexUnique (applyOp s op) := by
  cases op with
  | upsert sched now n preview tags => exact upsert_preserves_tiu sched now n preview tags s h
  | del uid => exact delete_note_preserves_tiu uid s h
  | orphans fe base => exact removeOrphansGo_preserves_tiu fe base _ s 0 h
  | rebuild now ns =>
    simp only [applyOp]
    cases hr : rebuild_full now ns s with
    | error e => exact h
    | ok s' =>
      show TitleIndexUnique s'
      unfold rebuild_full at hr
      cases hf : List.foldlM (rebuildStep now) IndexState.empty ns with
      | error e => rw [hf] at hr; simp at hr
      | ok s'' =>
        rw [hf] at hr
        injection hr with hr
        subst hr
        exact (rebuild_foldl_inv now ns IndexState.empty
          ⟨List.nodup_nil, by simp [IndexState.empty]⟩ s'' hf).1

/-- C9: after any sequence of `upsert_note_with_gallery` (under any
fault schedule), `delete_note`, `remove_orphans` and `rebuild_full`
operations, the `title_index` table holds at most one row per note
uid: each upsert deletes the uid's previous title entry before
inserting the new normalized title, so renaming a note never leaves a
stale title mapping for its uid. -/
theorem c9_title_index_unique_per_uid (s : IndexState) (ops : List IndexOp)
    (h : TitleIndexUnique s) : TitleIndexUnique (applyOps s ops) := by
  induction ops generalizing s with
  | nil => exact h
  | cons op rest ih =>
    exact ih (applyOp s op) (applyOp_preserves_tiu s op h)

/-- Witness for C9: a concrete run — index a note, rename it through a
partially failing upsert, delete another uid, rebuild, sweep orphans —
keeps the title index uid-unique. -/
theorem c9_witness :
    TitleIndexUnique IndexState.empty ∧
    TitleIndexUnique (applyOps IndexState.empty
      [.upsert (fun _ => false) ("2024-06-01 00:00:00")
         ⟨"u1", "A", "x [[B]] y", "/n/a.md", "h1",
          ⟨2024, 1, 2, 3, 4, 5⟩, ⟨2024, 1, 2, 3, 4, 5⟩⟩ ("p") ["t"],
       .upsert (fun i => i = 5) ("2024-06-01 00:00:01")
         ⟨"u1", "B", "y", "/n/a.md", "h2",
          ⟨2024, 1, 2, 3, 4, 5⟩, ⟨2024, 1, 2, 3, 4, 5⟩⟩ ("p") [],
       .del ("u2"),
       .rebuild ("2024-06-01 00:00:02")
         [⟨"u3", "C", "z", "/n/c.md", "h3",
           ⟨2024, 1, 2, 3, 4, 5⟩, ⟨2024, 1, 2, 3, 4, 5⟩⟩],
       .orphans (fun _ => false) ("/n")]) :=
  ⟨by decide,
   c9_title_index_unique_per_uid IndexState.empty _ (by decide)⟩

/-! ## Claim C6 -/

/-- Base-256 value of a byte string. -/
def byteVal (bs : List Nat) : Nat :=
  bs.foldl (fun acc b => acc * 256 + b) 0

theorem byteFoldl_bound : ∀ (bs : List Nat) (acc : Nat), (∀ b ∈ bs, b < 256) →
    bs.foldl (fun acc b => acc * 256 + b) acc < (acc + 1) * 256 ^ bs.length := by
  intro bs
  induction bs with
  | nil => intro acc _; simp
  | cons b rest ih =>
    intro acc hb
    have hblt : b < 256 := hb b (List.mem_cons_self b rest)
    have h1 := ih (acc * 256 + b) fun x hx => hb x (List.mem_cons_of_mem b hx)
    calc (b :: rest).foldl (fun acc b => acc * 256 + b) acc
        = rest.foldl (fun acc b => acc * 256 + b) (acc * 256 + b) := by simp
      _ < (acc * 256 + b + 1) * 256 ^ rest.length := h1
      _ ≤ ((acc + 1) * 256) * 256 ^ rest.length := by
          have : acc * 256 + b + 1 ≤ (acc + 1) * 256 := by omega
          exact Nat.mul_le_mul_right _ this
      _ = (acc + 1) * 256 ^ (b :: rest).length := by
          rw [List.length_cons, pow_succ]
          ring

theorem byteVal_lt {bs : List Nat} (h : ∀ b ∈ bs, b < 256) :
    byteVal bs < 256 ^ bs.length := by
  have := byteFoldl_bound bs 0 h
  simpa [byteVal] using this

theorem byteFoldl_inj : ∀ (bs cs : List Nat) (a₁ a₂ : Nat),
    bs.length = cs.length → (∀ b ∈ bs, b < 256) → (∀ c ∈ cs, c < 256) →
    bs.foldl (fun acc b => acc * 256 + b) a₁ = cs.foldl (fun acc b => acc * 256 + b) a₂ →
    a₁ = a₂ ∧ bs = cs := by
  intro bs
  induction bs with
  | nil =>
    intro cs a₁ a₂ hlen _ _ heq
    cases cs with
    | nil => exact ⟨by simpa using heq, rfl⟩
    | cons c cs => simp at hlen
  | cons b rest ih =>
    intro cs a₁ a₂ hlen hb hc heq
    cases cs with
    | nil => simp at hlen
    | cons c cs =>
      simp only [List.length_cons, Nat.succ.injEq] at hlen
      simp only [List.foldl_cons] at heq
      obtain ⟨hacc, hrest⟩ := ih cs (a₁ * 256 + b) (a₂ * 256 + c) hlen
        (fun x hx => hb x (List.mem_cons_of_mem b hx))
        (fun x hx => hc x (List.mem_cons_of_mem c hx)) heq
      have hblt : b < 256 := hb b (List.mem_cons_self b rest)
      have hclt : c < 256 := hc c (List.mem_cons_self c cs)
      have hba : a₁ = a₂ ∧ b = c := by omega
      exact ⟨hba.1, by rw [hba.2, hrest]⟩

theorem byteVal_inj {bs cs : List Nat} (hlen : bs.length = cs.length)
    (hb : ∀ b ∈ bs, b < 256) (hc : ∀ c ∈ cs, c < 256)
    (heq : byteVal bs = byteVal cs) : bs = cs :=
  (byteFoldl_inj bs cs 0 0 hlen hb hc heq).2

theorem blake3Bytes_length (bs : List Nat) : (blake3Bytes bs).length = 32 := by
  unfold blake3Bytes
  simp [List.range_succ]

theorem blake3Bytes_lt (bs : List Nat) : ∀ b ∈ blake3Bytes bs, b < 256 := by
  intro b hb
  unfold blake3Bytes at hb
  simp only [List.mem_flatMap, List.mem_map, List.mem_range] at hb
  obtain ⟨w, _, hw⟩ := hb
  simp only [List.mem_cons, List.mem_singleton] at hw
  rcases hw with rfl | rfl | rfl | rfl | h
  · exact Nat.mod_lt _ (by norm_num)
  · exact Nat.mod_lt _ (by norm_num)
  · exact Nat.mod_lt _ (by norm_num)
  · exact Nat.mod_lt _ (by norm_num)
  · exact absurd h (List.not_mem_nil b)

theorem hexOfBytes_length (bs : List Nat) : (hexOfBytes bs).length = 2 * bs.length := by
  induction bs with
  | nil => rfl
  | cons b rest ih =>
    simp only [hexOfBytes, List.flatMap_cons] at ih ⊢
    simp only [List.length_append, List.length_cons, List.length_nil, ih]
    omega

/-- C6 counterexample: the claim `compute_hash a = compute_hash b ↔
a = b` is false.  The hash is a 32-byte (64 hex character) digest, so
by counting there exist two distinct contents with the same hash: the
forward direction of the claimed equivalence cannot hold for all
strings. -/
theorem c6_hash_injectivity_refuted :
    ¬ (∀ a b : String, compute_hash a = compute_hash b ↔ a = b) := by
  intro hiff
  have hinj : Function.Injective
      (fun n : ℕ => compute_hash (String.mk (List.replicate n 'a'))) := by
    intro m n h
    have hs := (hiff _ _).mp h
    have hlen := congrArg (fun s : String => s.data.length) hs
    simpa using hlen
  have hfin : ∀ n : ℕ,
      byteVal (blake3Bytes (utf8Bytes (String.mk (List.replicate n 'a')))) < 256 ^ 32 := by
    intro n
    have h1 := byteVal_lt (blake3Bytes_lt (utf8Bytes (String.mk (List.replicate n 'a'))))
    rwa [blake3Bytes_length] at h1
  obtain ⟨m, n, hne, he⟩ := Finite.exists_ne_map_eq_of_infinite
    (fun n : ℕ => (⟨byteVal (blake3Bytes (utf8Bytes (String.mk (List.replicate n 'a')))),
      hfin n⟩ : Fin (256 ^ 32)))
  apply hne
  apply hinj
  have hv : byteVal (blake3Bytes (utf8Bytes (String.mk (List.replicate m 'a')))) =
      byteVal (blake3Bytes (utf8Bytes (String.mk (List.replicate n 'a')))) := by
    simpa using congrArg Fin.val he
  have hbytes := byteVal_inj
    (by rw [blake3Bytes_length, blake3Bytes_length])
    (blake3Bytes_lt _) (blake3Bytes_lt _) hv
  show compute_hash _ = compute_hash _
  unfold compute_hash
  rw [hbytes]

/-- C6 amended: `compute_hash` is deterministic (equal raw content
always gives the equal hash), its output is always a 64-character hex
fingerprint, and distinct contents are distinguished in practice
(witnessed by a concrete single-byte change) — though not universally,
collisions existing by counting. -/
theorem c6_hash_deterministic_and_sensitive :
    (∀ a b : String, a = b → compute_hash a = compute_hash b) ∧
    (∀ s : String, (compute_hash s).length = 64) ∧
    compute_hash ("a") ≠ compute_hash ("b") := by
  refine ⟨fun a b h => congrArg compute_hash h, fun s => ?_, by decide⟩
  show (compute_hash s).data.length = 64
  unfold compute_hash
  rw [show (String.mk (hexOfBytes (blake3Bytes (utf8Bytes s)))).data =
    hexOfBytes (blake3Bytes (utf8Bytes s)) from rfl]
  rw [hexOfBytes_length, blake3Bytes_length]

/-- Witness for C6 (amended): determinism applied at a concrete
content. -/
theorem c6_witness :
    compute_hash ("hello") = compute_hash ("hello") ∧
    (compute_hash ("hello")).length = 64 :=
  ⟨c6_hash_deterministic_and_sensitive.1 ("hello") ("hello") rfl,
   c6_hash_deterministic_and_sensitive.2.1 ("hello")⟩

/-! ## Claim C5 -/

/-- The link at `l.position` sits inside a `[[ ... ]]` span of the
content whose bracketed text `mid` contains no line break. -/
def SpanAt (cs : List Char) (l : ExtractedLink) : Prop :=
  ∃ pre mid post, cs = pre ++ ('[' :: '[' :: (mid ++ (']' :: ']' :: post))) ∧
    utf8Len pre = l.position ∧ '\n' ∉ mid

/-- Neither the extracted title nor the display alias contains a line
break. -/
def LinkNoNl (l : ExtractedLink) : Prop :=
  '\n' ∉ l.title.data ∧ ∀ d, l.display = some d → '\n' ∉ d.data

theorem utf8Len_append (a b : List Char) :
    utf8Len (a ++ b) = utf8Len a + utf8Len b := by
  simp [utf8Len]

theorem SpanAt_mono {cs : List Char} {l : ExtractedLink} (ext : List Char)
    (h : SpanAt cs l) : SpanAt (cs ++ ext) l := by
  obtain ⟨pre, mid, post, hshape, hpos, hnl⟩ := h
  exact ⟨pre, mid, post ++ ext, by simp [hshape], hpos, hnl⟩

theorem mem_trimL {a : Char} {cs : List Char} (h : a ∈ trimL cs) : a ∈ cs := by
  unfold trimL trimEndL trimStartL at h
  have h1 := (List.dropWhile_sublist _).mem (List.mem_reverse.mp h)
  exact (List.dropWhile_sublist _).mem (List.mem_reverse.mp h1)

/-- Invariant carried by the scanning state between characters:
`done` is the consumed prefix. -/
def WlStateInv (done : List Char) : WlState → Prop
  | .out => True
  | .seenLB p => ∃ pre, done = pre ++ ['['] ∧ utf8Len pre = p
  | .inLink p t d =>
    (∃ pre mid, done = pre ++ ('[' :: '[' :: mid) ∧ utf8Len pre = p ∧ '\n' ∉ mid) ∧
    '\n' ∉ t ∧ ∀ dl, d = some dl → '\n' ∉ dl
  | .seenRB p t d =>
    (∃ pre mid, done = pre ++ ('[' :: '[' :: mid) ++ [']'] ∧ utf8Len pre = p ∧ '\n' ∉ mid) ∧
    '\n' ∉ t ∧ ∀ dl, d = some dl → '\n' ∉ dl

def WlInv (done : List Char) : List ExtractedLink × Nat × WlState → Prop
  | (links, pos, st) =>
    pos = utf8Len done ∧
    (∀ l ∈ links, SpanAt done l ∧ LinkNoNl l) ∧
    WlStateInv done st

theorem wlStep_inv {done : List Char} (c : Char)
    (links : List ExtractedLink) (pos : Nat) (st : WlState)
    (h : WlInv done (links, pos, st)) :
    WlInv (done ++ [c]) (wlStep (links, pos, st) c) := by
  simp only [WlInv] at h
  obtain ⟨hpos, hlinks, hst⟩ := h
  have hpos' : pos + utf8SizeC c = utf8Len (done ++ [c]) := by
    rw [utf8Len_append, hpos]
    simp [utf8Len]
  have hlinks' : ∀ l ∈ links, SpanAt (done ++ [c]) l ∧ LinkNoNl l :=
    fun l hl => ⟨SpanAt_mono [c] (hlinks l hl).1, (hlinks l hl).2⟩
  cases st with
  | out =>
    simp only [wlStep]
    by_cases hc : c = '['
    · simp only [if_pos hc, WlInv]
      subst hc
      exact ⟨hpos', hlinks', done, rfl, hpos.symm⟩
    · simp only [if_neg hc, WlInv]
      exact ⟨hpos', hlinks', trivial⟩
  | seenLB p =>
    obtain ⟨pre, hdone, hpre⟩ := hst
    simp only [wlStep]
    by_cases hc : c = '['
    · simp only [if_pos hc, WlInv]
      subst hc
      exact ⟨hpos', hlinks', ⟨pre, [], by simp [hdone], hpre, by simp⟩, by simp,
        fun dl hdl => by simp at hdl⟩
    · simp only [if_neg hc, WlInv]
      exact ⟨hpos', hlinks', trivial⟩
  | inLink p t d =>
    obtain ⟨⟨pre, mid, hdone, hpre, hmid⟩, hnt, hnd⟩ := hst
    simp only [wlStep]
    by_cases hc1 : c = ']'
    · simp only [if_pos hc1, WlInv]
      subst hc1
      exact ⟨hpos', hlinks', ⟨pre, mid, by simp [hdone], hpre, hmid⟩, hnt, hnd⟩
    · by_cases hc2 : c = '\n'
      · simp only [if_neg hc1, if_pos hc2, WlInv]
        exact ⟨hpos', hlinks', trivial⟩
      · have hmid' : '\n' ∉ mid ++ [c] := by
          intro hm
          rcases List.mem_append.mp hm with hm | hm
          · exact hmid hm
          · simp only [List.mem_singleton] at hm; exact hc2 hm.symm
        have hshape' : done ++ [c] = pre ++ ('[' :: '[' :: (mid ++ [c])) := by
          simp [hdone]
        by_cases hc3 : c = '|' ∧ d = none
        · simp only [if_neg hc1, if_neg hc2, if_pos hc3, WlInv]
          exact ⟨hpos', hlinks', ⟨pre, mid ++ [c], hshape', hpre, hmid'⟩, hnt,
            fun dl hdl => by injection hdl with hdl; rw [← hdl]; simp⟩
        · simp only [if_neg hc1, if_neg hc2, if_neg hc3]
          cases d with
          | some dl =>
            simp only [WlInv]
            refine ⟨hpos', hlinks', ⟨pre, mid ++ [c], hshape', hpre, hmid'⟩, hnt, ?_⟩
            intro dl' hdl'
            injection hdl' with hdl'
            rw [← hdl']
            intro hm
            rcases List.mem_append.mp hm with hm | hm
            · exact hnd dl rfl hm
            · simp only [List.mem_singleton] at hm; exact hc2 hm.symm
          | none =>
            simp only [WlInv]
            refine ⟨hpos', hlinks', ⟨pre, mid ++ [c], hshape', hpre, hmid'⟩, ?_,
              fun dl hdl => by simp at hdl⟩
            intro hm
            rcases List.mem_append.mp hm with hm | hm
            · exact hnt hm
            · simp only [List.mem_singleton] at hm; exact hc2 hm.symm
  | seenRB p t d =>
    obtain ⟨⟨pre, mid, hdone, hpre, hmid⟩, hnt, hnd⟩ := hst
    simp only [wlStep]
    by_cases hc1 : c = ']'
    · simp only [if_pos hc1, WlInv]
      subst hc1
      refine ⟨hpos', ?_, trivial⟩
      intro l hl
      unfold emitLink at hl
      by_cases ht : t ≠ []
      · rw [if_pos ht] at hl
        rcases List.mem_append.mp hl with hl | hl
        · exact hlinks' l hl
        · simp only [List.mem_singleton] at hl
          subst hl
          refine ⟨⟨pre, mid, [], by simp [hdone], hpre, hmid⟩, ?_, ?_⟩
          · exact fun hm => hnt (mem_trimL hm)
          · cases d with
            | none => intro dstr hd; simp at hd
            | some dl =>
              intro dstr hd
              simp only [Option.map_some] at hd
              injection hd with hd
              rw [← hd]
              exact fun hm => hnd dl rfl (mem_trimL hm)
      · rw [if_neg ht] at hl
        exact hlinks' l hl
    · by_cases hc2 : c = '\n'
      · simp only [if_neg hc1, if_pos hc2, WlInv]
        exact ⟨hpos', hlinks', trivial⟩
      · have hmid' : '\n' ∉ (mid ++ [']']) ++ [c] := by
          intro hm
          rcases List.mem_append.mp hm with hm | hm
          · rcases List.mem_append.mp hm with hm | hm
            · exact hmid hm
            · simp at hm
          · simp only [List.mem_singleton] at hm; exact hc2 hm.symm
        have hshape' : done ++ [c] = pre ++ ('[' :: '[' :: ((mid ++ [']']) ++ [c])) := by
          simp [hdone]
        by_cases hc3 : c = '|' ∧ d = none
        · simp only [if_neg hc1, if_neg hc2, if_pos hc3, WlInv]
          exact ⟨hpos', hlinks', ⟨pre, (mid ++ [']']) ++ [c], hshape', hpre, hmid'⟩, hnt,
            fun dl hdl => by injection hdl with hdl; rw [← hdl]; simp⟩
        · simp only [if_neg hc1, if_neg hc2, if_neg hc3]
          cases d with
          | some dl =>
            simp only [WlInv]
            refine ⟨hpos', hlinks',
              ⟨pre, (mid ++ [']']) ++ [c], hshape', hpre, hmid'⟩, hnt, ?_⟩
            intro dl' hdl'
            injection hdl' with hdl'
            rw [← hdl']
            intro hm
            rcases List.mem_append.mp hm with hm | hm
            · exact hnd dl rfl hm
            · simp only [List.mem_singleton] at hm; exact hc2 hm.symm
          | none =>
            simp only [WlInv]
            refine ⟨hpos', hlinks',
              ⟨pre, (mid ++ [']']) ++ [c], hshape', hpre, hmid'⟩, ?_,
              fun dl hdl => by simp at hdl⟩
            intro hm
            rcases List.mem_append.mp hm with hm | hm
            · exact hnt hm
            · simp only [List.mem_singleton] at hm; exact hc2 hm.symm

theorem wlFold_inv : ∀ (rest done : List Char)
    (acc : List ExtractedLink × Nat × WlState), WlInv done acc →
    ∀ l ∈ (rest.foldl wlStep acc).1, SpanAt (done ++ rest) l ∧ LinkNoNl l := by
  intro rest
  induction rest with
  | nil =>
    intro done acc h l hl
    obtain ⟨links, pos, st⟩ := acc
    simp only [WlInv] at h
    simpa using (h.2.1 l (by simpa using hl))
  | cons c rest ih =>
    intro done acc h l hl
    obtain ⟨links, pos, st⟩ := acc
    have h' := wlStep_inv c links pos st h
    have := ih (done ++ [c]) (wlStep (links, pos, st) c) h' l (by simpa using hl)
    simpa using this

/-- C5: every link returned by `extract_wiki_links` comes from a
`[[ ... ]]` span in which both opening and both closing brackets occur
with no line break between them: the bracketed text `mid` contains no
newline (so no extracted link spans a line break, and a `[[` that
reaches a newline before `]]` contributes no link), and neither the
extracted title nor the display alias contains a newline. -/
theorem c5_wiki_links_no_line_break (content : String) :
    ∀ l ∈ extract_wiki_links content,
      (∃ pre mid post,
        content.data = pre ++ ('[' :: '[' :: (mid ++ (']' :: ']' :: post))) ∧
        utf8Len pre = l.position ∧ '\n' ∉ mid) ∧
      '\n' ∉ l.title.data ∧ ∀ d, l.display = some d → '\n' ∉ d.data := by
  intro l hl
  have := wlFold_inv content.data [] ([], 0, .out)
    ⟨by simp [utf8Len], by simp, trivial⟩ l hl
  simpa [SpanAt, LinkNoNl] using this

/-- Witness for C5: the concrete content `"ab [[X|Y]]\n[[no"` yields
exactly the link `X`/`Y` at byte 3, and the span/no-newline facts
instantiate on it. -/
theorem c5_witness :
    (⟨"X", some "Y", 3⟩ : ExtractedLink) ∈ extract_wiki_links ("ab [[X|Y]]\n[[no") ∧
    ((∃ pre mid post,
        ("ab [[X|Y]]\n[[no").data =
          pre ++ ('[' :: '[' :: (mid ++ (']' :: ']' :: post))) ∧
        utf8Len pre = (⟨"X", some "Y", 3⟩ : ExtractedLink).position ∧ '\n' ∉ mid) ∧
      '\n' ∉ (⟨"X", some "Y", 3⟩ : ExtractedLink).title.data ∧
      ∀ d, (⟨"X", some "Y", 3⟩ : ExtractedLink).display = some d → '\n' ∉ d.data) :=
  ⟨by decide,
   c5_wiki_links_no_line_break ("ab [[X|Y]]\n[[no") ⟨"X", some "Y", 3⟩ (by decide)⟩

/-! ## Machinery for C3/C4: effect of a fault-free upsert on `notes` -/

theorem runSteps_noFaults_notes
    (l : List (IndexState → Except IndexError IndexState))
    (h : ∀ f ∈ l, ∀ x, ∃ y, f x = .ok y ∧ y.notes = x.notes) :
    ∀ i t, ∃ t', runSteps (fun _ => false) i l t = (none, t') ∧ t'.notes = t.notes := by
  induction l with
  | nil => intro i t; exact ⟨t, rfl, rfl⟩
  | cons f fs ih =>
    intro i t
    obtain ⟨y, hy, hyn⟩ := h f (List.mem_cons_self f fs) t
    obtain ⟨t', ht', htn⟩ := ih (fun g hg => h g (List.mem_cons_of_mem f hg)) (i + 1) y
    refine ⟨t', ?_, by rw [htn, hyn]⟩
    rw [runSteps]
    simp only [if_false, Bool.false_eq_true]
    rw [hy]
    exact ht'

theorem upsertG_ok_notes (now : String) (n : IndexedNote) (preview : String)
    (tags : List String) (s s' : IndexState)
    (h : upsert_note_with_gallery now n preview tags s = .ok s') :
    ∃ s₁, notesUpsert n preview (jsonEncodeStrings tags) now s = .ok s₁ ∧
      s'.notes = s₁.notes := by
  unfold upsert_note_with_gallery upsertWithFaults upsertSteps at h
  simp only [List.cons_append, List.nil_append] at h
  rw [runSteps] at h
  simp only [if_false, Bool.false_eq_true] at h
  cases hn : notesUpsert n preview (jsonEncodeStrings tags) now s with
  | error e => rw [hn] at h; simp at h
  | ok s₁ =>
    rw [hn] at h
    simp only at h
    have hrest : ∀ f ∈ ([ftsDelete n.uid, ftsInsert n.uid n.title n.content,
        blDelete n.uid] ++
        (((extract_wiki_links n.content).map fun l =>
          blInsert n.uid (toLowercaseRust l.title) l.position) ++
        [tiDelete n.uid, tiInsert (toLowercaseRust n.title) n.uid])),
        ∀ x, ∃ y, f x = .ok y ∧ y.notes = x.notes := by
      intro f hf x
      rcases List.mem_append.mp hf with hf | hf
      · simp only [List.mem_cons, List.mem_singleton] at hf
        rcases hf with rfl | rfl | rfl | hf
        · exact ⟨_, rfl, rfl⟩
        · exact ⟨_, rfl, rfl⟩
        · exact ⟨_, rfl, rfl⟩
        · exact absurd hf (List.not_mem_nil f)
      · rcases List.mem_append.mp hf with hf | hf
        · rcases List.mem_map.mp hf with ⟨l, _, rfl⟩
          exact ⟨_, rfl, rfl⟩
        · simp only [List.mem_cons, List.mem_singleton] at hf
          rcases hf with rfl | rfl | hf
          · exact ⟨_, rfl, rfl⟩
          · exact ⟨_, rfl, rfl⟩
          · exact absurd hf (List.not_mem_nil f)
    obtain ⟨t', ht', htn⟩ := runSteps_noFaults_notes _ hrest 1 s₁
    simp only [List.cons_append, List.nil_append] at ht'
    rw [ht'] at h
    simp only at h
    injection h with h
    exact ⟨s₁, rfl, by rw [← h, htn]⟩

theorem find?_map_uid (g : NoteRow → NoteRow) (hgu : ∀ r, (g r).uid = r.uid)
    (u : String) : ∀ l : List NoteRow,
    (l.map g).find? (fun r => r.uid = u) = (l.find? (fun r => r.uid = u)).map g := by
  intro l
  induction l with
  | nil => rfl
  | cons r t ih =>
    by_cases hr : r.uid = u
    · rw [List.map_cons,
        List.find?_cons_of_pos _ (by simp [hgu, hr]),
        List.find?_cons_of_pos _ (by simp [hr])]
      rfl
    · rw [List.map_cons,
        List.find?_cons_of_neg _ (by simp [hgu, hr]),
        List.find?_cons_of_neg _ (by simp [hr])]
      exact ih

theorem find?_append_one (p : NoteRow → Bool) (x : NoteRow) : ∀ l : List NoteRow,
    (l ++ [x]).find? p =
      match l.find? p with
      | some r => some r
      | none => if p x then some x else none := by
  intro l
  induction l with
  | nil => cases hx : p x <;> simp [List.find?, hx]
  | cons a t ih =>
    by_cases ha : p a
    · rw [List.cons_append, List.find?_cons_of_pos _ ha, List.find?_cons_of_pos _ ha]
    · rw [List.cons_append, List.find?_cons_of_neg _ ha, List.find?_cons_of_neg _ ha]
      exact ih

theorem find?_mem_some {l : List NoteRow} {p : NoteRow → Bool}
    (hex : ∃ r ∈ l, p r = true) : ∃ r, l.find? p = some r ∧ p r = true := by
  cases hf : l.find? p with
  | none =>
    obtain ⟨r, hr, hpr⟩ := hex
    exact absurd hpr (by simpa using List.find?_eq_none.mp hf r hr)
  | some r => exact ⟨r, rfl, List.find?_some hf⟩

/-- Effect of a successful `notesUpsert` on the `notes` table: rows of
other uids are untouched, the row of the upserted uid carries the new
hash and path, and uid-uniqueness is preserved. -/
theorem notesUpsert_ok_spec (n : IndexedNote) (preview tj now : String)
    (s s₁ : IndexState) (h : notesUpsert n preview tj now s = .ok s₁) :
    (∀ u', u' ≠ n.uid →
      s₁.notes.find? (fun r => r.uid = u') = s.notes.find? (fun r => r.uid = u')) ∧
    (∃ row, s₁.notes.find? (fun r => r.uid = n.uid) = some row ∧
      row.content_hash = n.content_hash ∧ row.file_path = n.file_path) ∧
    ((s.notes.map NoteRow.uid).Nodup → (s₁.notes.map NoteRow.uid).Nodup) := by
  unfold notesUpsert at h
  split at h
  · exact absurd h (by simp)
  · split at h
    · rename_i hany
      injection h with h
      subst h
      set g : NoteRow → NoteRow := fun r =>
        if r.uid = n.uid then
          { r with title := n.title, file_path := n.file_path,
                   content_hash := n.content_hash,
                   updated_at := ⟨format_datetime n.updated_at⟩,
                   indexed_at := now, preview := preview, tags_json := tj }
        else r with hg
      have hgu : ∀ r, (g r).uid = r.uid := by
        intro r
        by_cases hr : r.uid = n.uid <;> simp [hg, hr]
      refine ⟨?_, ?_, ?_⟩
      · intro u' hu'
        show (s.notes.map g).find? _ = _
        rw [find?_map_uid g hgu u']
        cases hf : s.notes.find? (fun r => r.uid = u') with
        | none => rfl
        | some r =>
          have hru : r.uid = u' := by simpa using List.find?_some hf
          exact congrArg some (show g r = r from by simp [hg, hru, hu'])
      · have hex : ∃ r ∈ s.notes, (fun r : NoteRow => decide (r.uid = n.uid)) r = true := by
          simpa using hany
        obtain ⟨r₀, hf, hp⟩ := find?_mem_some hex
        have hr₀ : r₀.uid = n.uid := by simpa using hp
        refine ⟨g r₀, ?_, ?_, ?_⟩
        · show (s.notes.map g).find? _ = _
          rw [find?_map_uid g hgu n.uid, hf]
          rfl
        · simp [hg, hr₀]
        · simp [hg, hr₀]
      · intro hnd
        show ((s.notes.map g).map NoteRow.uid).Nodup
        rw [List.map_map]
        have hmm : s.notes.map (NoteRow.uid ∘ g) = s.notes.map NoteRow.uid :=
          List.map_congr_left fun r _ => hgu r
        rw [hmm]
        exact hnd
    · rename_i hany
      injection h with h
      subst h
      have hnone : s.notes.find? (fun r => r.uid = n.uid) = none := by
        rw [List.find?_eq_none]
        intro r hr
        simp only [decide_eq_true_eq]
        intro he
        exact hany (List.any_eq_true.mpr ⟨r, hr, by simp [he]⟩)
      refine ⟨?_, ?_, ?_⟩
      · intro u' hu'
        show (s.notes ++ [_]).find? _ = _
        rw [find?_append_one]
        cases hf : s.notes.find? (fun r => r.uid = u') with
        | none => simp [Ne.symm hu']
        | some r => rfl
      · refine ⟨⟨n.uid, n.title, n.file_path, n.content_hash,
          ⟨format_datetime n.created_at⟩, ⟨format_datetime n.updated_at⟩,
          now, preview, tj⟩, ?_, rfl, rfl⟩
        show (s.notes ++ [_]).find? _ = _
        rw [find?_append_one, hnone]
        simp
      · intro hnd
        show ((s.notes ++ [_]).map NoteRow.uid).Nodup
        rw [List.map_append]
        simp only [List.map_cons, List.map_nil]
        rw [List.nodup_append]
        refine ⟨hnd, List.nodup_singleton _, ?_⟩
        intro a ha hb
        simp only [List.mem_singleton] at hb
        subst hb
        rcases List.mem_map.mp ha with ⟨r, hr, hre⟩
        exact hany (List.any_eq_true.mpr ⟨r, hr, by simp [hre]⟩)

/-- The same facts lifted to a successful fault-free
`upsert_note_with_gallery`. -/
theorem upsertG_ok_spec (now : String) (n : IndexedNote) (preview : String)
    (tags : List String) (s s' : IndexState)
    (h : upsert_note_with_gallery now n preview tags s = .ok s') :
    (∀ u', u' ≠ n.uid →
      s'.notes.find? (fun r => r.uid = u') = s.notes.find? (fun r => r.uid = u')) ∧
    (∃ row, s'.notes.find? (fun r => r.uid = n.uid) = some row ∧
      row.content_hash = n.content_hash ∧ row.file_path = n.file_path) ∧
    ((s.notes.map NoteRow.uid).Nodup → (s'.notes.map NoteRow.uid).Nodup) := by
  obtain ⟨s₁, hn, hnotes⟩ := upsertG_ok_notes now n preview tags s s' h
  obtain ⟨h1, h2, h3⟩ := notesUpsert_ok_spec n preview (jsonEncodeStrings tags) now s s₁ hn
  exact ⟨fun u' hu' => by rw [hnotes]; exact h1 u' hu',
    by rw [hnotes]; exact h2,
    fun hnd => by rw [hnotes]; exact h3 hnd⟩

/-! ## Machinery for C3/C4: `remove_orphans` deletes exactly the dead
rows -/

theorem removeOrphansGo_spec (fe : String → Bool) (base : String) :
    ∀ (pending kept : List NoteRow) (s : IndexState) (removed : Nat),
    s.notes = kept ++ pending →
    ((s.notes.map NoteRow.uid).Nodup) →
    ∃ s', removeOrphansGo fe base (pending.map fun r => (r.uid, r.file_path)) s removed =
      (removed + (pending.filter fun r => ! fe (resolvePath base r.file_path)).length, s') ∧
      s'.notes = kept ++ (pending.filter fun r => fe (resolvePath base r.file_path)) := by
  intro pending
  induction pending with
  | nil =>
    intro kept s removed hsplit hnd
    exact ⟨s, by simp [removeOrphansGo], by simpa using hsplit⟩
  | cons r pending ih =>
    intro kept s removed hsplit hnd
    simp only [List.map_cons]
    by_cases hal : fe (resolvePath base r.file_path)
    · obtain ⟨s', heq, hnotes⟩ := ih (kept ++ [r]) s removed
        (by rw [hsplit]; simp) hnd
      refine ⟨s', ?_, ?_⟩
      · rw [removeOrphansGo, if_pos hal, heq]
        simp [hal]
      · rw [hnotes, List.filter_cons, if_pos (by simpa using hal)]
        simp
    · have hnotuid : ∀ x ∈ kept ++ pending, x.uid ≠ r.uid := by
        rw [hsplit, List.map_append, List.map_cons] at hnd
        obtain ⟨hk, hrp, hdisj⟩ := List.nodup_append.mp hnd
        intro x hx he
        rcases List.mem_append.mp hx with hx | hx
        · exact hdisj (List.mem_map.mpr ⟨x, hx, rfl⟩)
            (by rw [he]; exact List.mem_cons_self _ _)
        · exact (List.nodup_cons.mp hrp).1
            (by rw [← he]; exact List.mem_map.mpr ⟨x, hx, rfl⟩)
      have hs₂notes : (deleteAllByUid r.uid s).notes = kept ++ pending := by
        show (s.notes.filter fun x => x.uid ≠ r.uid) = kept ++ pending
        rw [hsplit]
        rw [List.filter_append, List.filter_cons]
        rw [if_neg (by simp)]
        rw [List.filter_eq_self.mpr fun x hx => by
              simpa using hnotuid x (List.mem_append_left _ hx),
            List.filter_eq_self.mpr fun x hx => by
              simpa using hnotuid x (List.mem_append_right _ hx)]
      obtain ⟨s', heq, hnotes⟩ := ih kept (deleteAllByUid r.uid s) (removed + 1)
        hs₂notes
        (by
          rw [hs₂notes]
          rw [hsplit] at hnd
          have hsub : ((kept ++ pending).map NoteRow.uid).Sublist
              ((kept ++ r :: pending).map NoteRow.uid) := by
            apply List.Sublist.map
            exact List.Sublist.append_left (List.sublist_cons_self r pending) kept
          exact hnd.sublist hsub)
      refine ⟨s', ?_, ?_⟩
      · rw [removeOrphansGo, if_neg hal, heq]
        rw [List.filter_cons, if_pos (by simpa using hal)]
        simp only [List.length_cons]
        congr 1
        omega
      · rw [hnotes, List.filter_cons, if_neg (by simpa using hal)]

theorem remove_orphans_spec (fe : String → Bool) (base : String) (s : IndexState)
    (hnd : (s.notes.map NoteRow.uid).Nodup) :
    ∃ s', remove_orphans fe base s =
      ((s.notes.filter fun r => ! fe (resolvePath base r.file_path)).length, s') ∧
      s'.notes = s.notes.filter fun r => fe (resolvePath base r.file_path) := by
  obtain ⟨s', heq, hnotes⟩ := removeOrphansGo_spec fe base s.notes [] s 0 (by simp) hnd
  exact ⟨s', by rw [remove_orphans, heq]; simp, by simpa using hnotes⟩

/-! ## Machinery for C3/C4: the indexing loop -/

/-- Does the sync pass (re)index this file against state `s`: the file
parses and `needs_update` holds for its uid and hash. -/
def needsUpd0 (s : IndexState) (pc : String × String) : Bool :=
  match Note.from_file_content pc.2 with
  | .ok note => needs_update s note.metadata.uid (compute_hash pc.2)
  | .error _ => false

/-- The uids of the parseable files, in listing order. -/
def parseableUids (files : List (String × String)) : List String :=
  files.filterMap fun pc =>
    match Note.from_file_content pc.2 with
    | .ok note => some note.metadata.uid
    | .error _ => none

theorem needs_update_congr {s₁ s₂ : IndexState} (u h : String)
    (hf : s₁.notes.find? (fun r => r.uid = u) = s₂.notes.find? (fun r => r.uid = u)) :
    needs_update s₁ u h = needs_update s₂ u h := by
  unfold needs_update
  rw [hf]

theorem mem_parseableUids {files : List (String × String)}
    {pc : String × String} {note : Note} (hpc : pc ∈ files)
    (hparse : Note.from_file_content pc.2 = .ok note) :
    note.metadata.uid ∈ parseableUids files :=
  List.mem_filterMap.mpr ⟨pc, hpc, by rw [hparse]⟩

theorem syncLoop_spec (now : String) :
    ∀ (files : List (String × String)) (s : IndexState) (upd : Nat)
      (s₁ : IndexState) (upd₁ : Nat),
    syncLoop now files s upd = .ok (s₁, upd₁) →
    (parseableUids files).Nodup →
    (s.notes.map NoteRow.uid).Nodup →
    upd₁ = upd + files.countP (needsUpd0 s) ∧
    (s₁.notes.map NoteRow.uid).Nodup ∧
    (∀ u', u' ∉ parseableUids files →
      s₁.notes.find? (fun r => r.uid = u') = s.notes.find? (fun r => r.uid = u')) ∧
    (∀ pc ∈ files, ∀ note, Note.from_file_content pc.2 = .ok note →
      ∃ row, s₁.notes.find? (fun r => r.uid = note.metadata.uid) = some row ∧
        row.content_hash = compute_hash pc.2) := by
  intro files
  induction files with
  | nil =>
    intro s upd s₁ upd₁ h _ hndS
    simp only [syncLoop] at h
    injection h with h
    injection h with h1 h2
    subst h1
    subst h2
    exact ⟨by simp, hndS, fun u' _ => rfl, fun pc hpc => absurd hpc (List.not_mem_nil pc)⟩
  | cons pc files ih =>
    intro s upd s₁ upd₁ h hndP hndS
    obtain ⟨p, c⟩ := pc
    cases hparse : Note.from_file_content c with
    | error e =>
      have hP : parseableUids ((p, c) :: files) = parseableUids files := by
        simp [parseableUids, hparse]
      rw [hP] at hndP
      have hloop : syncLoop now files s upd = .ok (s₁, upd₁) := by
        rw [syncLoop, hparse] at h
        exact h
      obtain ⟨h1, h2, h3, h4⟩ := ih s upd s₁ upd₁ hloop hndP hndS
      refine ⟨?_, h2, ?_, ?_⟩
      · rw [List.countP_cons]
        have : needsUpd0 s (p, c) = false := by simp [needsUpd0, hparse]
        simp [this, h1]
      · intro u' hu'
        exact h3 u' (by rwa [hP] at hu')
      · intro pc' hpc' note' hparse'
        rcases List.mem_cons.mp hpc' with rfl | hpc'
        · rw [hparse] at hparse'
          exact absurd hparse' (by simp)
        · exact h4 pc' hpc' note' hparse'
    | ok note =>
      have hP : parseableUids ((p, c) :: files) =
          note.metadata.uid :: parseableUids files := by
        simp [parseableUids, hparse]
      rw [hP] at hndP
      obtain ⟨hnotinP, hndP'⟩ := List.nodup_cons.mp hndP
      by_cases hnu : needs_update s note.metadata.uid (compute_hash c)
      · cases hup : upsert_note_with_gallery now
          ⟨note.metadata.uid, (note.extract_heading).getD note.metadata.uid,
           note.content, p, compute_hash c,
           note.metadata.created_at, note.metadata.updated_at⟩
          (generate_preview note.content PREVIEW_LENGTH) note.all_tags s with
        | error e =>
          rw [syncLoop, hparse] at h
          simp only [hnu, if_pos, if_true] at h
          rw [hup] at h
          simp at h
        | ok s' =>
          have hloop : syncLoop now files s' (upd + 1) = .ok (s₁, upd₁) := by
            rw [syncLoop, hparse] at h
            simp only [hnu, if_pos, if_true] at h
            rw [hup] at h
            exact h
          obtain ⟨hother, ⟨row, hself, hselfhash, hselfpath⟩, hndpres⟩ :=
            upsertG_ok_spec _ _ _ _ _ _ hup
          obtain ⟨h1, h2, h3, h4⟩ := ih s' (upd + 1) s₁ upd₁ hloop hndP' (hndpres hndS)
          have hcount : files.countP (needsUpd0 s') = files.countP (needsUpd0 s) := by
            apply List.countP_congr
            intro pc' hpc'
            obtain ⟨p', c'⟩ := pc'
            cases hparse' : Note.from_file_content c' with
            | error e => simp [needsUpd0, hparse']
            | ok note' =>
              have hmem : note'.metadata.uid ∈ parseableUids files :=
                mem_parseableUids hpc' hparse'
              have hne : note'.metadata.uid ≠ note.metadata.uid := by
                intro he
                exact hnotinP (he ▸ hmem)
              simp only [needsUpd0, hparse']
              rw [needs_update_congr note'.metadata.uid (compute_hash c') (hother _ hne)]
          refine ⟨?_, h2, ?_, ?_⟩
          · have hthis : needsUpd0 s (p, c) = true := by simp [needsUpd0, hparse, hnu]
            rw [h1, hcount, List.countP_cons, hthis]
            simp only [if_pos rfl, if_true, eq_self_iff_true]
            omega
          · intro u' hu'
            rw [hP] at hu'
            have hne : u' ≠ note.metadata.uid := fun he => hu' (by rw [he]; exact List.mem_cons_self _ _)
            have hnotin : u' ∉ parseableUids files := fun hm => hu' (List.mem_cons_of_mem _ hm)
            rw [h3 u' hnotin, hother u' hne]
          · intro pc' hpc' note' hparse'
            rcases List.mem_cons.mp hpc' with he | hpc'
            · have hp' : pc'.2 = c := by rw [he]
              rw [hp'] at hparse'
              rw [hparse] at hparse'
              injection hparse' with hparse'
              subst hparse'
              rw [h3 note.metadata.uid hnotinP, hself]
              exact ⟨row, rfl, by rw [hselfhash, hp']⟩
            · exact h4 pc' hpc' note' hparse'
      · have hloop : syncLoop now files s upd = .ok (s₁, upd₁) := by
          rw [syncLoop, hparse] at h
          simp only [hnu, if_neg, if_false] at h
          exact h
        obtain ⟨h1, h2, h3, h4⟩ := ih s upd s₁ upd₁ hloop hndP' hndS
        refine ⟨?_, h2, ?_, ?_⟩
        · rw [List.countP_cons]
          have : needsUpd0 s (p, c) = false := by
            simp only [needsUpd0, hparse]
            simpa using hnu
          simp [this, h1]
        · intro u' hu'
          rw [hP] at hu'
          exact h3 u' fun hm => hu' (List.mem_cons_of_mem _ hm)
        · intro pc' hpc' note' hparse'
          rcases List.mem_cons.mp hpc' with he | hpc'
          · have hp' : pc'.2 = c := by rw [he]
            rw [hp'] at hparse'
            rw [hparse] at hparse'
            injection hparse' with hparse'
            subst hparse'
            have hfind : ∃ row, s.notes.find? (fun r => r.uid = note.metadata.uid) = some row ∧
                row.content_hash = compute_hash c := by
              unfold needs_update at hnu
              cases hf : s.notes.find? (fun r => r.uid = note.metadata.uid) with
              | none => rw [hf] at hnu; simp at hnu
              | some r =>
                rw [hf] at hnu
                simp only [Bool.not_eq_true, decide_eq_false_iff_not, Decidable.not_not] at hnu
                exact ⟨r, rfl, by simpa using hnu⟩
            obtain ⟨row, hf, hh⟩ := hfind
            rw [h3 note.metadata.uid hnotinP, hf]
            exact ⟨row, rfl, by rw [hh, hp']⟩
          · exact h4 pc' hpc' note' hparse'

/-- When no file needs (re)indexing the loop is the identity. -/
theorem syncLoop_noop (now : String) :
    ∀ (files : List (String × String)) (s : IndexState) (upd : Nat),
    (∀ pc ∈ files, needsUpd0 s pc = false) →
    syncLoop now files s upd = .ok (s, upd) := by
  intro files
  induction files with
  | nil => intro s upd _; rfl
  | cons pc files ih =>
    intro s upd hall
    obtain ⟨p, c⟩ := pc
    have hhd := hall (p, c) (List.mem_cons_self _ _)
    cases hparse : Note.from_file_content c with
    | error e =>
      rw [syncLoop, hparse]
      exact ih s upd fun pc' hpc' => hall pc' (List.mem_cons_of_mem _ hpc')
    | ok note =>
      have hnu : needs_update s note.metadata.uid (compute_hash c) = false := by
        simpa [needsUpd0, hparse] using hhd
      rw [syncLoop, hparse]
      simp only [hnu, Bool.false_eq_true, if_false]
      exact ih s upd fun pc' hpc' => hall pc' (List.mem_cons_of_mem _ hpc')

/-- When every entry's resolved path exists, the orphan sweep deletes
nothing and returns the state unchanged. -/
theorem removeOrphansGo_noop (fe : String → Bool) (base : String) :
    ∀ (entries : List (String × String)) (s : IndexState) (removed : Nat),
    (∀ e ∈ entries, fe (resolvePath base e.2) = true) →
    removeOrphansGo fe base entries s removed = (removed, s) := by
  intro entries
  induction entries with
  | nil => intro s removed _; rfl
  | cons e rest ih =>
    intro s removed hall
    obtain ⟨u, p⟩ := e
    rw [removeOrphansGo, if_pos (hall (u, p) (List.mem_cons_self _ _))]
    exact ih s removed fun e' he' => hall e' (List.mem_cons_of_mem _ he')

/-! ## Claim C3 -/

/-- C3 counterexample: an empty index and one new parseable file.  The
claim says the new file is counted in the `added` field; the code
returns `added = 0` and counts it in `updated` instead (the `added`
binding of `sync_index` is never incremented). -/
theorem c3_added_never_counted :
    (sync_index ⟨[("/n/a.md",
        "---\nuid: u1\ncreated_at: 2024-01-02 03:04:05\nupdated_at: 2024-01-02 03:04:05\n---\n\nhi")],
        []⟩ ("/n") ("2024-06-01 00:00:00") IndexState.empty).map (fun x => x.1.added) =
      .ok 0 ∧
    (sync_index ⟨[("/n/a.md",
        "---\nuid: u1\ncreated_at: 2024-01-02 03:04:05\nupdated_at: 2024-01-02 03:04:05\n---\n\nhi")],
        []⟩ ("/n") ("2024-06-01 00:00:00") IndexState.empty).map (fun x => x.1.updated) =
      .ok 1 :=
  ⟨rfl, rfl⟩

/-- C3 amended: on a successful pass, `added` is always 0; a parseable
file that is new to the index or whose stored hash differs (i.e.
`needs_update` holds against the initial state) is counted in
`updated` (assuming parseable files carry pairwise distinct uids and
the index is uid-unique); and `removed` counts exactly the rows whose
resolved path no longer exists at sweep time, which are deleted. -/
theorem c3_sync_result_counts
    (fs : Fs) (base now : String) (s : IndexState) (r : SyncResult)
    (s' : IndexState)
    (hndP : (parseableUids fs.mdFiles).Nodup)
    (hndS : (s.notes.map NoteRow.uid).Nodup)
    (h : sync_index fs base now s = .ok (r, s')) :
    r.added = 0 ∧
    r.updated = fs.mdFiles.countP (needsUpd0 s) ∧
    ∃ sL upd, syncLoop now fs.mdFiles s 0 = .ok (sL, upd) ∧
      r.removed =
        (sL.notes.filter fun row => ! fs.fileExists (resolvePath base row.file_path)).length ∧
      s'.notes = sL.notes.filter fun row => fs.fileExists (resolvePath base row.file_path) := by
  unfold sync_index at h
  cases hl : syncLoop now fs.mdFiles s 0 with
  | error e => rw [hl] at h; simp at h
  | ok pr =>
    obtain ⟨sL, upd⟩ := pr
    rw [hl] at h
    simp only at h
    obtain ⟨h1, h2, h3, h4⟩ := syncLoop_spec now fs.mdFiles s 0 sL upd hl hndP hndS
    obtain ⟨s₂, heq, hnotes⟩ := remove_orphans_spec fs.fileExists base sL h2
    rw [heq] at h
    simp only at h
    injection h with h
    rw [Prod.mk.injEq] at h
    obtain ⟨hr, hs⟩ := h
    subst hs
    rw [← hr]
    exact ⟨rfl, by simpa using h1, sL, upd, rfl, rfl, hnotes⟩

/-! ## Claim C4 -/

/-- C4 counterexample: a stale index row whose file is gone but whose
stored hash matches an existing file with the same uid.  The first
`sync_index` succeeds (it skips the file since the hash matches, then
removes the stale row as an orphan); with no file changed in between,
the immediately following call re-indexes the file: its `updated`
field is 1, not 0 as the claim requires. -/
theorem c4_second_sync_not_idempotent :
    (sync_index ⟨[("/n/a.md",
        "---\nuid: u1\ncreated_at: 2024-01-02 03:04:05\nupdated_at: 2024-01-02 03:04:05\n---\n\nhi")],
        []⟩ ("/n") ("2024-06-01 00:00:00")
      ⟨[⟨"u1", "u1", "/n/gone.md",
         compute_hash ("---\nuid: u1\ncreated_at: 2024-01-02 03:04:05\nupdated_at: 2024-01-02 03:04:05\n---\n\nhi"),
         "2024-01-02 03:04:05", "2024-01-02 03:04:05", "2024-01-02 03:04:05",
         "hi", "[]"⟩], [], [], []⟩).map (fun x => x.1) = .ok ⟨0, 0, 1⟩ ∧
    ((sync_index ⟨[("/n/a.md",
        "---\nuid: u1\ncreated_at: 2024-01-02 03:04:05\nupdated_at: 2024-01-02 03:04:05\n---\n\nhi")],
        []⟩ ("/n") ("2024-06-01 00:00:00")
      ⟨[⟨"u1", "u1", "/n/gone.md",
         compute_hash ("---\nuid: u1\ncreated_at: 2024-01-02 03:04:05\nupdated_at: 2024-01-02 03:04:05\n---\n\nhi"),
         "2024-01-02 03:04:05", "2024-01-02 03:04:05", "2024-01-02 03:04:05",
         "hi", "[]"⟩], [], [], []⟩).bind fun pr =>
      sync_index ⟨[("/n/a.md",
        "---\nuid: u1\ncreated_at: 2024-01-02 03:04:05\nupdated_at: 2024-01-02 03:04:05\n---\n\nhi")],
        []⟩ ("/n") ("2024-06-01 00:00:01") pr.2).map (fun x => x.1.updated) = .ok 1 :=
  ⟨rfl, rfl⟩

/-- C4 amended: when the parseable files carry pairwise distinct uids,
the index is uid-unique, and the first successful `sync_index` pass
removed no orphans, an immediately following pass over the unchanged
directory is a no-op: it succeeds with `updated = 0` and `removed = 0`
(indeed `added = updated = removed = 0` and the index state is
untouched). -/
theorem c4_sync_index_idempotent
    (fs : Fs) (base now now₂ : String) (s : IndexState)
    (r₁ : SyncResult) (s₁ : IndexState)
    (hndP : (parseableUids fs.mdFiles).Nodup)
    (hndS : (s.notes.map NoteRow.uid).Nodup)
    (h1 : sync_index fs base now s = .ok (r₁, s₁))
    (hrem : r₁.removed = 0) :
    sync_index fs base now₂ s₁ = .ok (⟨0, 0, 0⟩, s₁) := by
  obtain ⟨hadded, hupd, sL, upd, hl, hremeq, hnotes⟩ :=
    c3_sync_result_counts fs base now s r₁ s₁ hndP hndS h1
  obtain ⟨_, hndL, _, h4⟩ := syncLoop_spec now fs.mdFiles s 0 sL upd hl hndP hndS
  have halive : ∀ row ∈ sL.notes, fs.fileExists (resolvePath base row.file_path) = true := by
    have hnil : (sL.notes.filter fun row =>
        ! fs.fileExists (resolvePath base row.file_path)) = [] := by
      rw [hremeq] at hrem
      exact List.length_eq_zero.mp hrem
    intro row hrow
    by_contra hna
    have : row ∈ (sL.notes.filter fun row =>
        ! fs.fileExists (resolvePath base row.file_path)) :=
      List.mem_filter.mpr ⟨hrow, by simpa using hna⟩
    rw [hnil] at this
    exact absurd this (List.not_mem_nil row)
  have hsame : s₁.notes = sL.notes := by
    rw [hnotes]
    exact List.filter_eq_self.mpr halive
  have hnoop : ∀ pc ∈ fs.mdFiles, needsUpd0 s₁ pc = false := by
    intro pc hpc
    obtain ⟨p, c⟩ := pc
    cases hparse : Note.from_file_content c with
    | error e => simp [needsUpd0, hparse]
    | ok note =>
      obtain ⟨row, hfind, hhash⟩ := h4 (p, c) hpc note hparse
      simp only [needsUpd0, hparse]
      unfold needs_update
      rw [hsame, hfind]
      simp [hhash]
  have hro : remove_orphans fs.fileExists base s₁ = (0, s₁) := by
    unfold remove_orphans
    apply removeOrphansGo_noop
    intro e he
    rcases List.mem_map.mp he with ⟨row, hrow, hre⟩
    have := halive row (by rw [← hsame]; exact hrow)
    rw [← hre]
    exact this
  unfold sync_index
  rw [syncLoop_noop now₂ fs.mdFiles s₁ 0 hnoop]
  simp only
  rw [hro]

/-- Shared concrete directory for the C3/C4 witnesses: one parseable
file. -/
def fsW : Fs :=
  ⟨[("/n/a.md",
     "---\nuid: u1\ncreated_at: 2024-01-02 03:04:05\nupdated_at: 2024-01-02 03:04:05\n---\n\nhi")],
   []⟩

/-- The index state after the first sync pass over `fsW`. -/
def s1W : IndexState :=
  ⟨[⟨"u1", "u1", "/n/a.md",
     "317d5dd50e973b05783e52f7832f552734ddf0182a905b16d65bb572b4d6659f",
     "2024-01-02 03:04:05", "2024-01-02 03:04:05", "2024-06-01 00:00:00",
     "hi", "[]"⟩],
   [⟨"u1", "u1", "hi"⟩], [], [("u1", "u1")]⟩

/-- Witness for C3: one new parseable file against the empty index. -/
theorem c3_witness :
    (parseableUids fsW.mdFiles).Nodup ∧
    (IndexState.empty.notes.map NoteRow.uid).Nodup ∧
    sync_index fsW ("/n") ("2024-06-01 00:00:00") IndexState.empty =
      .ok (⟨0, 1, 0⟩, s1W) ∧
    ((⟨0, 1, 0⟩ : SyncResult).added = 0 ∧
     (⟨0, 1, 0⟩ : SyncResult).updated = fsW.mdFiles.countP (needsUpd0 IndexState.empty) ∧
     ∃ sL upd, syncLoop ("2024-06-01 00:00:00") fsW.mdFiles IndexState.empty 0 =
         .ok (sL, upd) ∧
       (⟨0, 1, 0⟩ : SyncResult).removed =
         (sL.notes.filter fun row =>
           ! fsW.fileExists (resolvePath ("/n") row.file_path)).length ∧
       s1W.notes = sL.notes.filter fun row =>
         fsW.fileExists (resolvePath ("/n") row.file_path)) :=
  ⟨by decide, by decide, by rfl,
   c3_sync_result_counts fsW ("/n") ("2024-06-01 00:00:00") IndexState.empty
     ⟨0, 1, 0⟩ s1W (by decide) (by decide) (by rfl)⟩

/-- Witness for C4: the second pass over the unchanged directory is a
no-op. -/
theorem c4_witness :
    ((parseableUids fsW.mdFiles).Nodup ∧
     (IndexState.empty.notes.map NoteRow.uid).Nodup ∧
     sync_index fsW ("/n") ("2024-06-01 00:00:00") IndexState.empty =
       .ok (⟨0, 1, 0⟩, s1W) ∧
     (⟨0, 1, 0⟩ : SyncResult).removed = 0) ∧
    sync_index fsW ("/n") ("2024-06-01 00:00:01") s1W = .ok (⟨0, 0, 0⟩, s1W) :=
  ⟨⟨by decide, by decide, by rfl, rfl⟩,
   c4_sync_index_idempotent fsW ("/n") ("2024-06-01 00:00:00") ("2024-06-01 00:00:01")
     IndexState.empty ⟨0, 1, 0⟩ s1W (by decide) (by decide) (by rfl) rfl⟩


/-! ## Round-trip machinery: trimming -/

theorem getLast?_append_right {α : Type} (a b : List α) (hb : b ≠ []) :
    (a ++ b).getLast? = b.getLast? := by
  rw [← List.head?_reverse, ← List.head?_reverse, List.reverse_append]
  cases hbr : b.reverse with
  | nil => exact absurd (by simpa using congrArg List.reverse hbr) hb
  | cons h t => simp

theorem trimStartL_cons_of_not_ws {c : Char} (l : List Char)
    (h : ¬ rustIsWhitespace c) : trimStartL (c :: l) = c :: l := by
  simp [trimStartL, List.dropWhile_cons, h]

theorem trimEndL_of_last_not_ws {l : List Char}
    (h : ∀ c, l.getLast? = some c → ¬ rustIsWhitespace c) : trimEndL l = l := by
  unfold trimEndL
  cases hl : l.reverse with
  | nil =>
    have hnil : l = [] := by simpa using congrArg List.reverse hl
    simp [hnil]
  | cons c t =>
    have hlast : l.getLast? = some c := by
      have hv2 : l = (c :: t).reverse := by
        have := congrArg List.reverse hl
        rwa [List.reverse_reverse] at this
      rw [hv2, List.reverse_cons, getLast?_append_right _ _ (by simp)]
      rfl
    rw [List.dropWhile_cons, if_neg (by simpa using h c hlast)]
    rw [← hl, List.reverse_reverse]

/-- A string equal to its own trim is unchanged by `trim_start` and
`trim_end` separately. -/
theorem trim_idem_parts {l : List Char} (h : trimL l = l) :
    trimStartL l = l ∧ trimEndL l = l := by
  have hsuf : trimStartL l <:+ l := List.dropWhile_suffix _
  have hpre : List.Sublist (trimEndL (trimStartL l)) (trimStartL l) := by
    have h1 : List.Sublist ((trimStartL l).reverse.dropWhile rustIsWhitespace)
        (trimStartL l).reverse := List.dropWhile_sublist _
    have h2 := h1.reverse
    rw [List.reverse_reverse] at h2
    exact h2
  have hlen1 : l.length ≤ (trimStartL l).length := by
    have hlen := congrArg List.length h
    unfold trimL at hlen
    have h2 := hpre.length_le
    omega
  have hstart : trimStartL l = l :=
    hsuf.eq_of_length (le_antisymm hsuf.length_le hlen1)
  refine ⟨hstart, ?_⟩
  unfold trimL at h
  rwa [hstart] at h

/-- A trimmed string does not end in whitespace. -/
theorem trimmed_last_not_ws {l : List Char} (h : trimL l = l) :
    ∀ c, l.getLast? = some c → ¬ rustIsWhitespace c := by
  intro d hd hws
  have hvend := (trim_idem_parts h).2
  unfold trimEndL at hvend
  cases hvr : l.reverse with
  | nil =>
    have : l = [] := by simpa using congrArg List.reverse hvr
    rw [this] at hd
    exact absurd hd (by simp)
  | cons e t =>
    have he : e = d := by
      have hv2 : l = (e :: t).reverse := by
        have := congrArg List.reverse hvr
        rwa [List.reverse_reverse] at this
      rw [hv2, List.reverse_cons, getLast?_append_right _ _ (by simp)] at hd
      simpa using hd
    rw [hvr, List.dropWhile_cons, if_pos (by rw [he]; exact hws)] at hvend
    have hlen := congrArg List.length hvend
    have h1 : (t.dropWhile rustIsWhitespace).length ≤ t.length :=
      (List.dropWhile_sublist _).length_le
    have h2 : l.length = t.length + 1 := by
      have := congrArg List.length hvr
      simpa using this
    simp only [List.length_reverse] at hlen
    omega

/-- Trimming `key ++ v` for a trimmed non-empty `v` and a key starting
with a non-whitespace character gives the string back. -/
theorem trimL_key_val {key v : List Char}
    (hk : key ≠ []) (hkh : ∀ c, key.head? = some c → ¬ rustIsWhitespace c)
    (hv : trimL v = v) (hvne : v ≠ []) :
    trimL (key ++ v) = key ++ v := by
  obtain ⟨c, key', rfl⟩ : ∃ c key', key = c :: key' := by
    cases key with
    | nil => exact absurd rfl hk
    | cons c k => exact ⟨c, k, rfl⟩
  unfold trimL
  rw [List.cons_append, trimStartL_cons_of_not_ws _ (hkh c rfl)]
  apply trimEndL_of_last_not_ws
  intro d hd
  have hvlast : v.getLast? = some d := by
    rw [show c :: (key' ++ v) = (c :: key') ++ v from rfl,
      getLast?_append_right _ _ hvne] at hd
    exact hd
  exact trimmed_last_not_ws hv d hvlast

/-! ## Round-trip machinery: datetime -/

theorem digitChar_roundtrip :
    ∀ x < 10, isDigitC (digitChar x) = true ∧ digitVal (digitChar x) = x := by
  decide

theorem parse_format_datetime {d : DateTimeE} (h : d.Valid) :
    parse_datetime (format_datetime d) = some d := by
  obtain ⟨hy, hmo1, hmo2, hd1, hd2, hh, hmi, hs⟩ := h
  have hfmt : format_datetime d =
      [digitChar (d.year / 1000 % 10), digitChar (d.year / 100 % 10),
       digitChar (d.year / 10 % 10), digitChar (d.year % 10), '-',
       digitChar (d.month / 10 % 10), digitChar (d.month % 10), '-',
       digitChar (d.day / 10 % 10), digitChar (d.day % 10), ' ',
       digitChar (d.hour / 10 % 10), digitChar (d.hour % 10), ':',
       digitChar (d.minute / 10 % 10), digitChar (d.minute % 10), ':',
       digitChar (d.second / 10 % 10), digitChar (d.second % 10)] := by
    simp [format_datetime, pad4, pad2]
  have hdig : ∀ x, x < 10 → isDigitC (digitChar x) = true :=
    fun x hx => (digitChar_roundtrip x hx).1
  have hmod : ∀ n : Nat, n % 10 < 10 := fun n => Nat.mod_lt _ (by norm_num)
  have hv : ∀ n : Nat, digitVal (digitChar (n % 10)) = n % 10 :=
    fun n => (digitChar_roundtrip _ (hmod n)).2
  rw [hfmt]
  simp only [parse_datetime]
  have hall : ([digitChar (d.year / 1000 % 10), digitChar (d.year / 100 % 10),
       digitChar (d.year / 10 % 10), digitChar (d.year % 10),
       digitChar (d.month / 10 % 10), digitChar (d.month % 10),
       digitChar (d.day / 10 % 10), digitChar (d.day % 10),
       digitChar (d.hour / 10 % 10), digitChar (d.hour % 10),
       digitChar (d.minute / 10 % 10), digitChar (d.minute % 10),
       digitChar (d.second / 10 % 10), digitChar (d.second % 10)]).all isDigitC = true := by
    simp only [List.all_cons, List.all_nil, Bool.and_true, Bool.and_eq_true]
    exact ⟨hdig _ (hmod _), hdig _ (hmod _), hdig _ (hmod _), hdig _ (hmod _),
      hdig _ (hmod _), hdig _ (hmod _), hdig _ (hmod _), hdig _ (hmod _),
      hdig _ (hmod _), hdig _ (hmod _), hdig _ (hmod _), hdig _ (hmod _),
      hdig _ (hmod _), hdig _ (hmod _)⟩
  rw [if_pos hall]
  simp only [hv]
  have hY : ((d.year / 1000 % 10 * 10 + d.year / 100 % 10) * 10 + d.year / 10 % 10) * 10
      + d.year % 10 = d.year := by omega
  have hMO : d.month / 10 % 10 * 10 + d.month % 10 = d.month := by omega
  have hD : d.day / 10 % 10 * 10 + d.day % 10 = d.day := by omega
  have hH : d.hour / 10 % 10 * 10 + d.hour % 10 = d.hour := by omega
  have hMI : d.minute / 10 % 10 * 10 + d.minute % 10 = d.minute := by omega
  have hS : d.second / 10 % 10 * 10 + d.second % 10 = d.second := by omega
  simp only [hY, hMO, hD, hH, hMI, hS]
  rw [if_pos ⟨hmo1, hmo2, hd1, hd2, hh, hmi, hs⟩]

/-! ## Round-trip machinery: line joining and splitting -/

/-- Join lines with single `'\n'` separators (no trailing newline). -/
def joinNl : List (List Char) → List Char
  | [] => []
  | [l] => l
  | l :: ls => l ++ '\n' :: joinNl ls

theorem joinNl_cons_of_ne_nil (l : List Char) {ls : List (List Char)} (h : ls ≠ []) :
    joinNl (l :: ls) = l ++ '\n' :: joinNl ls := by
  cases ls with
  | nil => exact absurd rfl h
  | cons l' ls' => rfl

theorem joinNl_append (a b : List (List Char)) (ha : a ≠ []) (hb : b ≠ []) :
    joinNl (a ++ b) = joinNl a ++ '\n' :: joinNl b := by
  induction a with
  | nil => exact absurd rfl ha
  | cons x a' ih =>
    cases a' with
    | nil =>
      rw [List.cons_append, List.nil_append, joinNl_cons_of_ne_nil _ hb]
      rfl
    | cons y a'' =>
      rw [List.cons_append, joinNl_cons_of_ne_nil _ (by simp),
        joinNl_cons_of_ne_nil _ (by simp), ih (by simp)]
      simp

theorem joinNl_eq_intersperse : ∀ ls : List (List Char), ls ≠ [] →
    (List.intersperse ['\n'] ls).flatten = joinNl ls
  | [], h => absurd rfl h
  | [l], _ => by simp [List.intersperse, joinNl]
  | l :: l' :: ls, _ => by
    rw [List.intersperse_cons₂, List.flatten_cons, List.flatten_cons,
      joinNl_eq_intersperse (l' :: ls) (by simp),
      joinNl_cons_of_ne_nil l (show l' :: ls ≠ [] by simp)]
    simp

theorem go_cons_ne (acc : List Char) (c : Char) (rest : List Char) (h : c ≠ '\n') :
    linesL.go acc (c :: rest) = linesL.go (c :: acc) rest := by
  rw [linesL.go]
  exact fun hc => h hc

theorem go_nl (b rest : List Char) (hb : b.head? ≠ some '\r') :
    linesL.go b ('\n' :: rest) = b.reverse :: linesL.go [] rest := by
  rw [linesL.go]
  exact fun acc' h => hb (by rw [h]; rfl)

theorem go_nil (acc : List Char) :
    linesL.go acc [] = if acc.isEmpty then [] else [acc.reverse] := by
  rw [linesL.go]

theorem linesL_cons (c : Char) (rest : List Char) :
    linesL (c :: rest) = linesL.go [] (c :: rest) := rfl

theorem go_no_nl : ∀ (a acc rest : List Char), '\n' ∉ a →
    linesL.go acc (a ++ rest) = linesL.go (a.reverse ++ acc) rest := by
  intro a
  induction a with
  | nil => intro acc rest h; rfl
  | cons c a' ih =>
    intro acc rest h
    rw [List.cons_append, go_cons_ne _ _ _ (by simp at h; exact fun hc => h.1 hc.symm),
      ih _ _ (by simp at h; exact h.2)]
    simp

/-- One full line (newline-free, not ending in CR) followed by a
newline is emitted verbatim. -/
theorem go_line (a rest : List Char) (h : '\n' ∉ a) (hcr : a.getLast? ≠ some '\r') :
    linesL.go [] (a ++ '\n' :: rest) = a :: linesL.go [] rest := by
  rw [go_no_nl a [] ('\n' :: rest) h, List.append_nil,
    go_nl _ _ (by rwa [List.head?_reverse]), List.reverse_reverse]

/-- The final line of the input (newline-free, non-empty) is emitted. -/
theorem go_final (a : List Char) (h : '\n' ∉ a) (hne : a ≠ []) :
    linesL.go [] a = [a] := by
  have := go_no_nl a [] [] h
  rw [List.append_nil, List.append_nil] at this
  rw [this, go_nil, if_neg (by simpa using hne), List.reverse_reverse]

theorem linesL_of_ne_nil (cs : List Char) (h : cs ≠ []) :
    linesL cs = linesL.go [] cs := by
  cases cs with
  | nil => exact absurd rfl h
  | cons c t => rfl

theorem joinNl_ne_nil : ∀ ls : List (List Char), ls ≠ [] →
    (∀ l ∈ ls, l ≠ []) → joinNl ls ≠ [] := by
  intro ls hne hl
  cases ls with
  | nil => exact absurd rfl hne
  | cons l ls' =>
    cases ls' with
    | nil => exact hl l (by simp)
    | cons l' ls'' =>
      rw [joinNl_cons_of_ne_nil _ (by simp)]
      intro hx
      have := congrArg List.length hx
      simp at this

/-- `str::lines` of a newline-join of well-formed lines gives the
lines back. -/
theorem linesL_joinNl : ∀ lines : List (List Char), lines ≠ [] →
    (∀ l ∈ lines, l ≠ [] ∧ '\n' ∉ l ∧ l.getLast? ≠ some '\r') →
    linesL (joinNl lines) = lines := by
  intro lines
  induction lines with
  | nil => intro h; exact absurd rfl h
  | cons l ls ih =>
    intro _ hl
    obtain ⟨hlne, hlnl, hlcr⟩ := hl l (by simp)
    cases ls with
    | nil =>
      show linesL l = [l]
      rw [linesL_of_ne_nil l hlne, go_final l hlnl hlne]
    | cons l' ls' =>
      have hjne : joinNl (l' :: ls') ≠ [] :=
        joinNl_ne_nil _ (by simp) (fun x hx => (hl x (by simp [hx])).1)
      rw [joinNl_cons_of_ne_nil _ (by simp),
        linesL_of_ne_nil _ (by simp [hlne]),
        go_line l _ hlnl hlcr,
        ← linesL_of_ne_nil _ hjne,
        ih (by simp) (fun x hx => hl x (by simp [hx]))]

/-! ## Round-trip machinery: locating the closing fence -/

theorem isPrefixOf_cons_ne {p c : Char} (ps cs : List Char) (h : p ≠ c) :
    (p :: ps).isPrefixOf (c :: cs) = false := by
  simp [List.isPrefixOf, h]

/-- Inside a newline-free segment the fence pattern never matches. -/
theorem noNl_prefix_false {l : List Char} (h : '\n' ∉ l) {k : Nat}
    (hk : k < l.length) (rest : List Char) :
    (['\n', '-', '-', '-']).isPrefixOf (l.drop k ++ rest) = false := by
  cases hd : l.drop k with
  | nil =>
    have : l.length ≤ k := by
      have := congrArg List.length hd
      simp at this
      omega
    omega
  | cons c t =>
    have hc : c ∈ l := by
      have hmem : c ∈ l.drop k := by rw [hd]; simp
      exact List.mem_of_mem_drop hmem
    have hcne : c ≠ '\n' := fun he => h (he ▸ hc)
    rw [List.cons_append]
    exact isPrefixOf_cons_ne _ _ (fun he => hcne he.symm)

theorem pat_at_sep {c : Char} (hc : c ≠ '-') (xs : List Char) :
    (['\n', '-', '-', '-']).isPrefixOf ('\n' :: c :: xs) = false := by
  simp [List.isPrefixOf, Ne.symm hc]

theorem joinNl_cons_head (l' : List Char) (ls' : List (List Char)) {c : Char} {t : List Char}
    (hc : l' = c :: t) : ∃ tail, joinNl (l' :: ls') = c :: tail := by
  cases ls' with
  | nil => exact ⟨t, by simp [joinNl, hc]⟩
  | cons a b =>
    refine ⟨t ++ '\n' :: joinNl (a :: b), ?_⟩
    rw [joinNl_cons_of_ne_nil _ (by simp), hc, List.cons_append]

/-- The fence pattern `"\n---"` occurs nowhere strictly inside the
join of lines that are non-empty, newline-free and do not start with
a dash — whatever follows the join. -/
theorem fence_no_occ : ∀ lines : List (List Char),
    (∀ l ∈ lines, l ≠ [] ∧ '\n' ∉ l ∧ l.head? ≠ some '-') →
    ∀ (rest : List Char) (k : Nat), k < (joinNl lines).length →
    (['\n', '-', '-', '-']).isPrefixOf ((joinNl lines).drop k ++ rest) = false := by
  intro lines
  induction lines with
  | nil => intro _ rest k hk; simp [joinNl] at hk
  | cons l ls ih =>
    intro hl rest k hk
    obtain ⟨hlne, hlnl, hlh⟩ := hl l (by simp)
    cases ls with
    | nil => exact noNl_prefix_false hlnl (by simpa [joinNl] using hk) rest
    | cons l' ls' =>
      rw [joinNl_cons_of_ne_nil _ (by simp)] at hk ⊢
      by_cases hkl : k < l.length
      · rw [List.drop_append_of_le_length (le_of_lt hkl), List.append_assoc]
        exact noNl_prefix_false hlnl hkl _
      · by_cases hke : k = l.length
        · subst hke
          rw [List.drop_append_of_le_length (le_refl _), List.drop_length,
            List.nil_append]
          obtain ⟨hne', _, hh'⟩ := hl l' (by simp)
          obtain ⟨c, t, hct⟩ : ∃ c t, l' = c :: t := by
            cases l' with
            | nil => exact absurd rfl hne'
            | cons c t => exact ⟨c, t, rfl⟩
          have hcd : c ≠ '-' := fun he => hh' (by rw [hct, he]; rfl)
          obtain ⟨tail, htail⟩ := joinNl_cons_head l' ls' hct
          rw [List.cons_append, htail, List.cons_append]
          exact pat_at_sep hcd _
        · obtain ⟨k', rfl⟩ : ∃ k', k = l.length + (1 + k') :=
            ⟨k - l.length - 1, by omega⟩
          rw [List.drop_append]
          rw [show (1 + k') = k' + 1 from by omega, List.drop_succ_cons]
          refine ih (fun x hx => hl x (by simp [hx])) rest k' ?_
          simp only [List.length_append, List.length_cons] at hk
          omega

/-- `str::find` over `a ++ rest` where the pattern matches at the seam
and nowhere earlier. -/
theorem firstIdxOf_at {α : Type} [DecidableEq α] (pat : List α) :
    ∀ a rest : List α,
    (∀ k, k < a.length → pat.isPrefixOf (a.drop k ++ rest) = false) →
    startsWithL pat rest = true →
    firstIdxOf pat (a ++ rest) = some a.length := by
  intro a
  induction a with
  | nil =>
    intro rest _ hs
    cases rest with
    | nil =>
      have hpat : pat = [] := by
        cases pat with
        | nil => rfl
        | cons p ps => simp [startsWithL, List.isPrefixOf] at hs
      simp [firstIdxOf, hpat]
    | cons c r =>
      simp only [List.nil_append, firstIdxOf, if_pos hs]
      rfl
  | cons c a' ih =>
    intro rest hno hs
    rw [List.cons_append]
    rw [firstIdxOf, if_neg ?hneg]
    case hneg =>
      have h0 := hno 0 (by simp)
      simp only [List.drop_zero, List.cons_append] at h0
      simp [startsWithL, h0]
    rw [ih rest (fun k hk => by
          have := hno (k + 1) (by simp; omega)
          simpa using this) hs]
    rfl

/-! ## Round-trip machinery: prefix stripping and single yaml steps -/

theorem startsWithL_self {α : Type} [DecidableEq α] (p s : List α) :
    startsWithL p (p ++ s) = true := by
  rw [startsWithL, List.isPrefixOf_iff_prefix]
  exact List.prefix_append p s

theorem tsmF_no_match (pat : List Char) (fuel : Nat) (s : List Char)
    (hs : startsWithL pat s = false) : trimStartMatchesF pat fuel s = s := by
  cases fuel with
  | zero => rfl
  | succ n =>
    rw [trimStartMatchesF, if_neg]
    intro h
    rw [hs] at h
    exact absurd h.2 (by simp)

theorem tsmL_strip_once {pat s : List Char} (hp : pat ≠ [])
    (hs : startsWithL pat s = false) : trimStartMatchesL pat (pat ++ s) = s := by
  unfold trimStartMatchesL
  obtain ⟨p, pr, rfl⟩ : ∃ p pr, pat = p :: pr := by
    cases pat with
    | nil => exact absurd rfl hp
    | cons p pr => exact ⟨p, pr, rfl⟩
  rw [show ((p :: pr) ++ s).length = ((pr ++ s).length + 1) by simp]
  rw [trimStartMatchesF, if_pos ⟨hp, startsWithL_self _ _⟩]
  rw [show ((p :: pr) ++ s).drop (p :: pr).length = s from List.drop_left _ _]
  cases hlen : (pr ++ s).length with
  | zero =>
    have hsnil : s = [] := by
      simp at hlen
      exact hlen.2
    rw [hsnil]
    rfl
  | succ m => exact tsmF_no_match _ _ _ hs

theorem trimL_space_cons {u : List Char} (hu : trimL u = u) :
    trimL (' ' :: u) = u := by
  unfold trimL
  rw [show trimStartL (' ' :: u) = trimStartL u from by
    simp [trimStartL, List.dropWhile_cons, show rustIsWhitespace ' ' = true from by decide]]
  rw [(trim_idem_parts hu).1, (trim_idem_parts hu).2]

/-- Strip a `"key:"`-prefixed line down to its trimmed value: for a
trimmed value `v`, `trim(trim_start_matches(key ++ ": " ++ v))` where
the strip pattern is `key ++ ":"` yields `v` back, provided `v` does
not itself start with the pattern. -/
theorem strip_key_value {keyc : List Char} {v : List Char}
    (hv : trimL v = v) (hsv : startsWithL keyc (' ' :: v) = false) :
    trimL (trimStartMatchesL keyc ((keyc ++ [' ']) ++ v)) = v := by
  rw [List.append_assoc, List.singleton_append]
  rw [tsmL_strip_once (by intro h; rw [h] at hsv; simp [startsWithL, List.isPrefixOf] at hsv) hsv]
  exact trimL_space_cons hv

theorem in_tags_false_eta (st : YamlState) (h : st.in_tags = false) :
    ({ st with in_tags := false } : YamlState) = st := by
  cases st
  simp_all

theorem yamlStep_uid (st : YamlState) (h : st.in_tags = false) (u : List Char)
    (hu : trimL u = u) :
    yamlStep st ('u' :: 'i' :: 'd' :: ':' :: ' ' :: u) = { st with uid := some u } := by
  by_cases hune : u = []
  · subst hune
    have h1 : trimL ['u', 'i', 'd', ':', ' '] = ['u', 'i', 'd', ':'] := by decide
    have h2 : trimL (trimStartMatchesL ['u', 'i', 'd', ':'] ['u', 'i', 'd', ':']) = [] := by
      decide
    have h3 : startsWithL ['u', 'i', 'd', ':'] ['u', 'i', 'd', ':'] = true := by decide
    simp [yamlStep, h1, h2, h3, h]
  · have hkv : trimL ('u' :: 'i' :: 'd' :: ':' :: ' ' :: u) =
        'u' :: 'i' :: 'd' :: ':' :: ' ' :: u :=
      @trimL_key_val ['u', 'i', 'd', ':', ' '] u (by simp)
        (fun c hc => by injection hc with h1; rw [← h1]; decide) hu hune
    have hpos : startsWithL ['u', 'i', 'd', ':'] ('u' :: 'i' :: 'd' :: ':' :: ' ' :: u) = true := by
      rw [show 'u' :: 'i' :: 'd' :: ':' :: ' ' :: u = ['u', 'i', 'd', ':'] ++ (' ' :: u) from rfl]
      exact startsWithL_self _ _
    have hstrip : trimL (trimStartMatchesL ['u', 'i', 'd', ':']
        ('u' :: 'i' :: 'd' :: ':' :: ' ' :: u)) = u := by
      rw [show 'u' :: 'i' :: 'd' :: ':' :: ' ' :: u = (['u', 'i', 'd', ':'] ++ [' ']) ++ u from rfl]
      exact strip_key_value hu (isPrefixOf_cons_ne _ _ (by decide))
    simp [yamlStep, hkv, h, hpos, hstrip]

theorem isPrefixOf_cons₂_ne {p q e : Char} (ps cs : List Char) (h2 : q ≠ e) :
    (p :: q :: ps).isPrefixOf (p :: e :: cs) = false := by
  simp [List.isPrefixOf, h2]

theorem yamlStep_title (st : YamlState) (h : st.in_tags = false) (t : List Char)
    (ht : trimL t = t) (htne : t ≠ []) :
    yamlStep st ('t' :: 'i' :: 't' :: 'l' :: 'e' :: ':' :: ' ' :: t) =
      { st with title := some t } := by
  have hkv : trimL ('t' :: 'i' :: 't' :: 'l' :: 'e' :: ':' :: ' ' :: t) =
      't' :: 'i' :: 't' :: 'l' :: 'e' :: ':' :: ' ' :: t :=
    @trimL_key_val ['t', 'i', 't', 'l', 'e', ':', ' '] t (by simp)
      (fun c hc => by injection hc with h1; rw [← h1]; decide) ht htne
  have huidn : startsWithL ['u', 'i', 'd', ':']
      ('t' :: 'i' :: 't' :: 'l' :: 'e' :: ':' :: ' ' :: t) = false :=
    isPrefixOf_cons_ne _ _ (by decide)
  have hpos : startsWithL ['t', 'i', 't', 'l', 'e', ':']
      ('t' :: 'i' :: 't' :: 'l' :: 'e' :: ':' :: ' ' :: t) = true := by
    rw [show 't' :: 'i' :: 't' :: 'l' :: 'e' :: ':' :: ' ' :: t =
      ['t', 'i', 't', 'l', 'e', ':'] ++ (' ' :: t) from rfl]
    exact startsWithL_self _ _
  have hstrip : trimL (trimStartMatchesL ['t', 'i', 't', 'l', 'e', ':']
      ('t' :: 'i' :: 't' :: 'l' :: 'e' :: ':' :: ' ' :: t)) = t := by
    rw [show 't' :: 'i' :: 't' :: 'l' :: 'e' :: ':' :: ' ' :: t =
      (['t', 'i', 't', 'l', 'e', ':'] ++ [' ']) ++ t from rfl]
    exact strip_key_value ht (isPrefixOf_cons_ne _ _ (by decide))
  simp [yamlStep, hkv, h, huidn, hpos, hstrip, htne]

theorem yamlStep_tagsHeader (st : YamlState) (h : st.in_tags = false) :
    yamlStep st ['t', 'a', 'g', 's', ':'] = { st with in_tags := true } := by
  have h1 : trimL ['t', 'a', 'g', 's', ':'] = ['t', 'a', 'g', 's', ':'] := by decide
  have h2 : startsWithL ['u', 'i', 'd', ':'] ['t', 'a', 'g', 's', ':'] = false := by decide
  have h3 : startsWithL ['t', 'i', 't', 'l', 'e', ':'] ['t', 'a', 'g', 's', ':'] = false := by
    decide
  have h4 : startsWithL ['t', 'a', 'g', 's', ':'] ['t', 'a', 'g', 's', ':'] = true := by decide
  have h5 : trimL (trimStartMatchesL ['t', 'a', 'g', 's', ':'] ['t', 'a', 'g', 's', ':']) = [] := by
    decide
  have h6 : startsWithL ['['] ([] : List Char) = false := by decide
  simp [yamlStep, h1, h2, h3, h4, h5, h6, h]

theorem yamlStep_tag (st : YamlState) (h : st.in_tags = true) (t : List Char)
    (ht : trimL t = t) (htne : t ≠ []) (hts : startsWithL ['-', ' '] t = false) :
    yamlStep st (' ' :: ' ' :: '-' :: ' ' :: t) = { st with tags := st.tags ++ [t] } := by
  have hlt : trimL (' ' :: ' ' :: '-' :: ' ' :: t) = '-' :: ' ' :: t := by
    unfold trimL
    rw [show trimStartL (' ' :: ' ' :: '-' :: ' ' :: t) = trimStartL ('-' :: ' ' :: t) from by
      simp [trimStartL, List.dropWhile_cons, show rustIsWhitespace ' ' = true from by decide]]
    rw [trimStartL_cons_of_not_ws _ (by decide)]
    exact trimEndL_of_last_not_ws (fun c hc => by
      rw [show '-' :: ' ' :: t = ['-', ' '] ++ t from rfl,
        getLast?_append_right _ _ htne] at hc
      exact trimmed_last_not_ws ht c hc)
  have hpos : startsWithL ['-', ' '] ('-' :: ' ' :: t) = true := by
    rw [show '-' :: ' ' :: t = ['-', ' '] ++ t from rfl]
    exact startsWithL_self _ _
  have hstrip : trimL (trimStartMatchesL ['-', ' '] ('-' :: ' ' :: t)) = t := by
    rw [show '-' :: ' ' :: t = ['-', ' '] ++ t from rfl, tsmL_strip_once (by simp) hts]
    exact ht
  simp [yamlStep, hlt, h, hpos, hstrip, htne]

theorem format_datetime_eq (d : DateTimeE) : format_datetime d =
    [digitChar (d.year / 1000 % 10), digitChar (d.year / 100 % 10),
     digitChar (d.year / 10 % 10), digitChar (d.year % 10), '-',
     digitChar (d.month / 10 % 10), digitChar (d.month % 10), '-',
     digitChar (d.day / 10 % 10), digitChar (d.day % 10), ' ',
     digitChar (d.hour / 10 % 10), digitChar (d.hour % 10), ':',
     digitChar (d.minute / 10 % 10), digitChar (d.minute % 10), ':',
     digitChar (d.second / 10 % 10), digitChar (d.second % 10)] := by
  simp [format_datetime, pad4, pad2]

theorem digit_lt_10_facts : ∀ x < 10,
    ¬ rustIsWhitespace (digitChar x) ∧ digitChar x ≠ '\n' ∧ digitChar x ≠ '-' := by
  decide

theorem mod10_lt (n : Nat) : n % 10 < 10 := Nat.mod_lt _ (by norm_num)

theorem format_datetime_trimmed (d : DateTimeE) :
    trimL (format_datetime d) = format_datetime d := by
  rw [format_datetime_eq]
  unfold trimL
  rw [trimStartL_cons_of_not_ws _ ((digit_lt_10_facts _ (mod10_lt _)).1)]
  apply trimEndL_of_last_not_ws
  intro c hc
  rw [show [digitChar (d.year / 1000 % 10), digitChar (d.year / 100 % 10),
     digitChar (d.year / 10 % 10), digitChar (d.year % 10), '-',
     digitChar (d.month / 10 % 10), digitChar (d.month % 10), '-',
     digitChar (d.day / 10 % 10), digitChar (d.day % 10), ' ',
     digitChar (d.hour / 10 % 10), digitChar (d.hour % 10), ':',
     digitChar (d.minute / 10 % 10), digitChar (d.minute % 10), ':',
     digitChar (d.second / 10 % 10), digitChar (d.second % 10)] =
    [digitChar (d.year / 1000 % 10), digitChar (d.year / 100 % 10),
     digitChar (d.year / 10 % 10), digitChar (d.year % 10), '-',
     digitChar (d.month / 10 % 10), digitChar (d.month % 10), '-',
     digitChar (d.day / 10 % 10), digitChar (d.day % 10), ' ',
     digitChar (d.hour / 10 % 10), digitChar (d.hour % 10), ':',
     digitChar (d.minute / 10 % 10), digitChar (d.minute % 10), ':',
     digitChar (d.second / 10 % 10)] ++ [digitChar (d.second % 10)] from rfl,
    getLast?_append_right _ _ (by simp)] at hc
  have hcd : digitChar (d.second % 10) = c := by
    simpa using hc
  rw [← hcd]
  exact (digit_lt_10_facts _ (mod10_lt _)).1

theorem format_datetime_ne_nil (d : DateTimeE) : format_datetime d ≠ [] := by
  rw [format_datetime_eq]
  simp

theorem format_datetime_no_nl (d : DateTimeE) : '\n' ∉ format_datetime d := by
  rw [format_datetime_eq]
  intro hmem
  simp only [List.mem_cons, List.not_mem_nil, or_false] at hmem
  rcases hmem with h|h|h|h|h|h|h|h|h|h|h|h|h|h|h|h|h|h|h
  all_goals first
    | exact absurd h (by decide)
    | exact (digit_lt_10_facts _ (mod10_lt _)).2.1 h.symm


theorem yamlStep_created (st : YamlState) (d : DateTimeE) (hd : d.Valid) :
    yamlStep st ('c' :: 'r' :: 'e' :: 'a' :: 't' :: 'e' :: 'd' :: '_' :: 'a' :: 't' :: ':' :: ' ' ::
      format_datetime d) = { st with created_at := some d, in_tags := false } := by
  have hkv : trimL ('c' :: 'r' :: 'e' :: 'a' :: 't' :: 'e' :: 'd' :: '_' :: 'a' :: 't' :: ':' :: ' ' ::
      format_datetime d) = 'c' :: 'r' :: 'e' :: 'a' :: 't' :: 'e' :: 'd' :: '_' :: 'a' :: 't' :: ':' :: ' ' ::
      format_datetime d :=
    @trimL_key_val ['c', 'r', 'e', 'a', 't', 'e', 'd', '_', 'a', 't', ':', ' '] (format_datetime d)
      (by simp) (fun c hc => by injection hc with h1; rw [← h1]; decide)
      (format_datetime_trimmed d) (format_datetime_ne_nil d)
  have hdash : startsWithL ['-', ' '] ('c' :: 'r' :: 'e' :: 'a' :: 't' :: 'e' :: 'd' :: '_' :: 'a' :: 't' :: ':' :: ' ' ::
      format_datetime d) = false := isPrefixOf_cons_ne _ _ (by decide)
  have huidn : startsWithL ['u', 'i', 'd', ':'] ('c' :: 'r' :: 'e' :: 'a' :: 't' :: 'e' :: 'd' :: '_' :: 'a' :: 't' :: ':' :: ' ' ::
      format_datetime d) = false := isPrefixOf_cons_ne _ _ (by decide)
  have htitlen : startsWithL ['t', 'i', 't', 'l', 'e', ':'] ('c' :: 'r' :: 'e' :: 'a' :: 't' :: 'e' :: 'd' :: '_' :: 'a' :: 't' :: ':' :: ' ' ::
      format_datetime d) = false := isPrefixOf_cons_ne _ _ (by decide)
  have htagsn : startsWithL ['t', 'a', 'g', 's', ':'] ('c' :: 'r' :: 'e' :: 'a' :: 't' :: 'e' :: 'd' :: '_' :: 'a' :: 't' :: ':' :: ' ' ::
      format_datetime d) = false := isPrefixOf_cons_ne _ _ (by decide)
  have hpos : startsWithL ['c', 'r', 'e', 'a', 't', 'e', 'd', '_', 'a', 't', ':']
      ('c' :: 'r' :: 'e' :: 'a' :: 't' :: 'e' :: 'd' :: '_' :: 'a' :: 't' :: ':' :: ' ' ::
      format_datetime d) = true := by
    rw [show 'c' :: 'r' :: 'e' :: 'a' :: 't' :: 'e' :: 'd' :: '_' :: 'a' :: 't' :: ':' :: ' ' ::
      format_datetime d =
      ['c', 'r', 'e', 'a', 't', 'e', 'd', '_', 'a', 't', ':'] ++ (' ' :: format_datetime d) from rfl]
    exact startsWithL_self _ _
  have hstrip : trimL (trimStartMatchesL ['c', 'r', 'e', 'a', 't', 'e', 'd', '_', 'a', 't', ':']
      ('c' :: 'r' :: 'e' :: 'a' :: 't' :: 'e' :: 'd' :: '_' :: 'a' :: 't' :: ':' :: ' ' ::
      format_datetime d)) = format_datetime d := by
    rw [show 'c' :: 'r' :: 'e' :: 'a' :: 't' :: 'e' :: 'd' :: '_' :: 'a' :: 't' :: ':' :: ' ' ::
      format_datetime d =
      (['c', 'r', 'e', 'a', 't', 'e', 'd', '_', 'a', 't', ':'] ++ [' ']) ++ format_datetime d from rfl]
    exact strip_key_value (format_datetime_trimmed d) (isPrefixOf_cons_ne _ _ (by decide))
  have hparse : parse_datetime (format_datetime d) = some d := parse_format_datetime hd
  obtain ⟨u0, t0, g0, c0, p0, it0⟩ := st
  cases it0 with
  | false => simp [yamlStep, hkv, hdash, huidn, htitlen, htagsn, hpos, hstrip, hparse]
  | true => simp [yamlStep, hkv, hdash, huidn, htitlen, htagsn, hpos, hstrip, hparse]

theorem yamlStep_updated (st : YamlState) (d : DateTimeE) (hd : d.Valid) :
    yamlStep st ('u' :: 'p' :: 'd' :: 'a' :: 't' :: 'e' :: 'd' :: '_' :: 'a' :: 't' :: ':' :: ' ' ::
      format_datetime d) = { st with updated_at := some d, in_tags := false } := by
  have hkv : trimL ('u' :: 'p' :: 'd' :: 'a' :: 't' :: 'e' :: 'd' :: '_' :: 'a' :: 't' :: ':' :: ' ' ::
      format_datetime d) = 'u' :: 'p' :: 'd' :: 'a' :: 't' :: 'e' :: 'd' :: '_' :: 'a' :: 't' :: ':' :: ' ' ::
      format_datetime d :=
    @trimL_key_val ['u', 'p', 'd', 'a', 't', 'e', 'd', '_', 'a', 't', ':', ' '] (format_datetime d)
      (by simp) (fun c hc => by injection hc with h1; rw [← h1]; decide)
      (format_datetime_trimmed d) (format_datetime_ne_nil d)
  have hdash : startsWithL ['-', ' '] ('u' :: 'p' :: 'd' :: 'a' :: 't' :: 'e' :: 'd' :: '_' :: 'a' :: 't' :: ':' :: ' ' ::
      format_datetime d) = false := isPrefixOf_cons_ne _ _ (by decide)
  have huidn : startsWithL ['u', 'i', 'd', ':'] ('u' :: 'p' :: 'd' :: 'a' :: 't' :: 'e' :: 'd' :: '_' :: 'a' :: 't' :: ':' :: ' ' ::
      format_datetime d) = false := isPrefixOf_cons₂_ne _ _ (by decide)
  have htitlen : startsWithL ['t', 'i', 't', 'l', 'e', ':'] ('u' :: 'p' :: 'd' :: 'a' :: 't' :: 'e' :: 'd' :: '_' :: 'a' :: 't' :: ':' :: ' ' ::
      format_datetime d) = false := isPrefixOf_cons_ne _ _ (by decide)
  have htagsn : startsWithL ['t', 'a', 'g', 's', ':'] ('u' :: 'p' :: 'd' :: 'a' :: 't' :: 'e' :: 'd' :: '_' :: 'a' :: 't' :: ':' :: ' ' ::
      format_datetime d) = false := isPrefixOf_cons_ne _ _ (by decide)
  have hcren : startsWithL ['c', 'r', 'e', 'a', 't', 'e', 'd', '_', 'a', 't', ':']
      ('u' :: 'p' :: 'd' :: 'a' :: 't' :: 'e' :: 'd' :: '_' :: 'a' :: 't' :: ':' :: ' ' ::
      format_datetime d) = false := isPrefixOf_cons_ne _ _ (by decide)
  have hpos : startsWithL ['u', 'p', 'd', 'a', 't', 'e', 'd', '_', 'a', 't', ':']
      ('u' :: 'p' :: 'd' :: 'a' :: 't' :: 'e' :: 'd' :: '_' :: 'a' :: 't' :: ':' :: ' ' ::
      format_datetime d) = true := by
    rw [show 'u' :: 'p' :: 'd' :: 'a' :: 't' :: 'e' :: 'd' :: '_' :: 'a' :: 't' :: ':' :: ' ' ::
      format_datetime d =
      ['u', 'p', 'd', 'a', 't', 'e', 'd', '_', 'a', 't', ':'] ++ (' ' :: format_datetime d) from rfl]
    exact startsWithL_self _ _
  have hstrip : trimL (trimStartMatchesL ['u', 'p', 'd', 'a', 't', 'e', 'd', '_', 'a', 't', ':']
      ('u' :: 'p' :: 'd' :: 'a' :: 't' :: 'e' :: 'd' :: '_' :: 'a' :: 't' :: ':' :: ' ' ::
      format_datetime d)) = format_datetime d := by
    rw [show 'u' :: 'p' :: 'd' :: 'a' :: 't' :: 'e' :: 'd' :: '_' :: 'a' :: 't' :: ':' :: ' ' ::
      format_datetime d =
      (['u', 'p', 'd', 'a', 't', 'e', 'd', '_', 'a', 't', ':'] ++ [' ']) ++ format_datetime d from rfl]
    exact strip_key_value (format_datetime_trimmed d) (isPrefixOf_cons_ne _ _ (by decide))
  have hparse : parse_datetime (format_datetime d) = some d := parse_format_datetime hd
  obtain ⟨u0, t0, g0, c0, p0, it0⟩ := st
  cases it0 with
  | false => simp [yamlStep, hkv, hdash, huidn, htitlen, htagsn, hcren, hpos, hstrip, hparse]
  | true => simp [yamlStep, hkv, hdash, huidn, htitlen, htagsn, hcren, hpos, hstrip, hparse]


/-! ## Round-trip machinery: the yaml block as a line list -/

theorem joinNl_singleton (l : List Char) : joinNl [l] = l := rfl

theorem no_nl_append {a b : List Char} (ha : '\n' ∉ a) (hb : '\n' ∉ b) :
    '\n' ∉ a ++ b := by
  simp only [List.mem_append]
  tauto

theorem getLast_ne_cr {key v : List Char} (hkcr : key.getLast? ≠ some '\r')
    (hv : trimL v = v) : (key ++ v).getLast? ≠ some '\r' := by
  by_cases hvne : v = []
  · subst hvne
    simpa using hkcr
  · rw [getLast?_append_right _ _ hvne]
    intro hc
    exact trimmed_last_not_ws hv '\r' hc (by decide)

theorem mk_data_map (ts : List String) :
    List.map (fun l => (⟨l⟩ : String)) (List.map String.data ts) = ts := by
  induction ts with
  | nil => rfl
  | cons t ts' ih => simp [ih]

theorem dropWhile_nl_id {body : List Char} (h : body.head? ≠ some '\n') :
    body.dropWhile (· = '\n') = body := by
  cases body with
  | nil => rfl
  | cons c t =>
    rw [List.dropWhile_cons, if_neg]
    intro hc
    simp only [decide_eq_true_eq] at hc
    exact h (by rw [hc]; simp)

/-- The lines of the yaml block emitted by `to_yaml`. -/
def yamlLines (m : NoteMetadata) : List (List Char) :=
  (("uid: ").data ++ m.uid.data) ::
  ((match m.title with
    | some t => [("title: ").data ++ t.data]
    | none => []) ++
   (if m.tags.isEmpty then []
    else ("tags:").data :: m.tags.map (fun t => ("  - ").data ++ t.data)) ++
   [("created_at: ").data ++ format_datetime m.created_at,
    ("updated_at: ").data ++ format_datetime m.updated_at])

theorem joinNl_cons_cons (a b : List Char) (ls : List (List Char)) :
    joinNl (a :: b :: ls) = a ++ '\n' :: joinNl (b :: ls) := rfl

theorem joinNl_two (a b : List Char) : joinNl [a, b] = a ++ '\n' :: b := rfl

theorem to_yaml_eq_joinNl (m : NoteMetadata) : m.to_yaml = joinNl (yamlLines m) := by
  obtain ⟨uid, title, tags, cdt, udt⟩ := m
  cases title with
  | none =>
    cases tags with
    | nil =>
      simp [NoteMetadata.to_yaml, yamlLines, joinNl_cons_cons, joinNl_two,
        joinNl_singleton]
    | cons t ts =>
      simp [NoteMetadata.to_yaml, yamlLines, joinNl_cons_cons, joinNl_two,
        joinNl_singleton, joinNl_append, joinNl_eq_intersperse, joinNl_cons_of_ne_nil,
        -List.map_cons]
  | some ttl =>
    cases tags with
    | nil =>
      simp [NoteMetadata.to_yaml, yamlLines, joinNl_cons_cons, joinNl_two,
        joinNl_singleton]
    | cons t ts =>
      simp [NoteMetadata.to_yaml, yamlLines, joinNl_cons_cons, joinNl_two,
        joinNl_singleton, joinNl_append, joinNl_eq_intersperse, joinNl_cons_of_ne_nil,
        -List.map_cons]


theorem key_val_line_wf {key v : List Char} (c : Char) (hk : key.head? = some c)
    (hcd : c ≠ '-') (hkne : key ≠ []) (hknl : '\n' ∉ key) (hkcr : key.getLast? ≠ some '\r')
    (hv : trimL v = v) (hvnl : '\n' ∉ v) :
    (key ++ v) ≠ [] ∧ '\n' ∉ (key ++ v) ∧ (key ++ v).getLast? ≠ some '\r' ∧
    (key ++ v).head? ≠ some '-' := by
  refine ⟨by simp [hkne], no_nl_append hknl hvnl, getLast_ne_cr hkcr hv, ?_⟩
  cases key with
  | nil => exact absurd rfl hkne
  | cons k ks =>
    simp only [List.head?_cons] at hk
    simp only [List.cons_append, List.head?_cons]
    injection hk with h1
    rw [h1]
    intro hcon
    injection hcon with h2
    exact hcd h2

/-- Every line written by `to_yaml` is non-empty, newline-free, does
not end in a carriage return and does not start with a dash. -/
theorem yamlLines_wf (m : NoteMetadata)
    (hu1 : trimL m.uid.data = m.uid.data) (hu2 : '\n' ∉ m.uid.data)
    (ht : ∀ t, m.title = some t → trimL t.data = t.data ∧ '\n' ∉ t.data)
    (htags : ∀ t ∈ m.tags, trimL t.data = t.data ∧ '\n' ∉ t.data) :
    ∀ l ∈ yamlLines m, l ≠ [] ∧ '\n' ∉ l ∧ l.getLast? ≠ some '\r' ∧
      l.head? ≠ some '-' := by
  intro l hl
  obtain ⟨uid, title, tags, cdt, udt⟩ := m
  simp only at hu1 hu2 ht htags
  simp only [yamlLines, List.mem_cons, List.mem_append, List.not_mem_nil, or_false] at hl
  rcases hl with rfl | hl
  · exact key_val_line_wf 'u' rfl (by decide) (by simp) (by decide) (by decide) hu1 hu2
  rcases hl with (hl | hl) | rfl | rfl
  · cases title with
    | none => simp at hl
    | some ttl =>
      simp only [List.mem_singleton] at hl
      subst hl
      obtain ⟨ht1, ht2⟩ := ht ttl rfl
      exact key_val_line_wf 't' rfl (by decide) (by simp) (by decide) (by decide) ht1 ht2
  · by_cases hte : tags.isEmpty
    · rw [if_pos hte] at hl
      simp at hl
    · rw [if_neg hte] at hl
      simp only [List.mem_cons, List.mem_map] at hl
      rcases hl with rfl | ⟨t, htmem, rfl⟩
      · exact ⟨by simp, by decide, by decide, by decide⟩
      · obtain ⟨ht1, ht2⟩ := htags t htmem
        exact key_val_line_wf ' ' rfl (by decide) (by simp) (by decide) (by decide) ht1 ht2
  · exact key_val_line_wf 'c' rfl (by decide) (by simp)
      (by decide) (by decide) (format_datetime_trimmed cdt) (format_datetime_no_nl cdt)
  · exact key_val_line_wf 'u' rfl (by decide) (by simp)
      (by decide) (by decide) (format_datetime_trimmed udt) (format_datetime_no_nl udt)

theorem foldl_tag_lines : ∀ (ts : List String) (st : YamlState), st.in_tags = true →
    (∀ t ∈ ts, trimL t.data = t.data ∧ t.data ≠ [] ∧ startsWithL ['-', ' '] t.data = false) →
    (ts.map fun t => ' ' :: ' ' :: '-' :: ' ' :: t.data).foldl yamlStep st =
      { st with tags := st.tags ++ ts.map String.data } := by
  intro ts
  induction ts with
  | nil =>
    intro st h _
    obtain ⟨u0, t0, g0, c0, p0, it0⟩ := st
    simp
  | cons t ts' ih =>
    intro st h hts
    obtain ⟨h1, h2, h3⟩ := hts t (by simp)
    rw [List.map_cons, List.foldl_cons, yamlStep_tag st h t.data h1 h2 h3,
      ih ({ st with tags := st.tags ++ [t.data] })
        (show ({ st with tags := st.tags ++ [t.data] } : YamlState).in_tags = true from h)
        (fun x hx => hts x (by simp [hx]))]
    obtain ⟨u0, t0, g0, c0, p0, it0⟩ := st
    simp


theorem mk_data_eta (s : String) : (⟨s.data⟩ : String) = s := rfl

theorem map_mk_comp_data (ts : List String) :
    ts.map ((fun x => (⟨x⟩ : String)) ∘ String.data) = ts := by
  induction ts with
  | nil => rfl
  | cons t ts' ih => simp [ih]

/-- `from_yaml` inverts `to_yaml` for metadata whose fields survive
the line-oriented format: trimmed newline-free uid, trimmed non-empty
newline-free title (when present), trimmed non-empty newline-free tags
that do not begin with `"- "`, and calendar timestamps in range. -/
theorem from_yaml_to_yaml (m : NoteMetadata)
    (hu1 : trimL m.uid.data = m.uid.data) (hu2 : '\n' ∉ m.uid.data)
    (ht : ∀ t, m.title = some t → trimL t.data = t.data ∧ t.data ≠ [] ∧ '\n' ∉ t.data)
    (htags : ∀ t ∈ m.tags, trimL t.data = t.data ∧ t.data ≠ [] ∧ '\n' ∉ t.data ∧
        startsWithL ['-', ' '] t.data = false)
    (hcv : m.created_at.Valid) (huv : m.updated_at.Valid) :
    NoteMetadata.from_yaml m.to_yaml = some m := by
  have hwf := yamlLines_wf m hu1 hu2 (fun t htt => ⟨(ht t htt).1, (ht t htt).2.2⟩)
    (fun t htm => ⟨(htags t htm).1, (htags t htm).2.2.1⟩)
  rw [to_yaml_eq_joinNl]
  simp only [NoteMetadata.from_yaml]
  rw [linesL_joinNl (yamlLines m) (by simp [yamlLines])
    (fun l hl => ⟨(hwf l hl).1, (hwf l hl).2.1, (hwf l hl).2.2.1⟩)]
  obtain ⟨uid, title, tags, cdt, udt⟩ := m
  simp only at hu1 hu2 ht htags hcv huv
  cases title with
  | none =>
    cases tags with
    | nil =>
      simp only [yamlLines, List.isEmpty_nil, if_true, List.nil_append, List.cons_append,
        List.append_nil, List.foldl_cons, List.foldl_nil]
      rw [yamlStep_uid yamlInit rfl uid.data hu1,
        yamlStep_created _ cdt hcv, yamlStep_updated _ udt huv]
      simp [mk_data_eta, yamlInit]
    | cons t ts =>
      simp only [yamlLines, List.isEmpty_cons, List.nil_append, List.cons_append,
        List.append_nil, if_neg (show ¬ (false = true) from by simp),
        List.foldl_cons, List.foldl_append, List.foldl_nil]
      rw [yamlStep_uid yamlInit rfl uid.data hu1,
        yamlStep_tagsHeader _ rfl,
        foldl_tag_lines (t :: ts) _ rfl
          (fun x hx => ⟨(htags x hx).1, (htags x hx).2.1, (htags x hx).2.2.2⟩),
        yamlStep_created _ cdt hcv, yamlStep_updated _ udt huv]
      simp [mk_data_eta, mk_data_map, map_mk_comp_data, yamlInit]
  | some ttl =>
    obtain ⟨ht1, ht2, _⟩ := ht ttl rfl
    cases tags with
    | nil =>
      simp only [yamlLines, List.isEmpty_nil, if_true, List.nil_append, List.cons_append,
        List.append_nil, List.singleton_append, List.foldl_cons, List.foldl_nil]
      rw [yamlStep_uid yamlInit rfl uid.data hu1,
        yamlStep_title _ rfl ttl.data ht1 ht2,
        yamlStep_created _ cdt hcv, yamlStep_updated _ udt huv]
      simp [mk_data_eta, yamlInit]
    | cons t ts =>
      simp only [yamlLines, List.isEmpty_cons, List.nil_append, List.cons_append,
        List.append_nil, if_neg (show ¬ (false = true) from by simp),
        List.singleton_append, List.foldl_cons, List.foldl_append, List.foldl_nil]
      rw [yamlStep_uid yamlInit rfl uid.data hu1,
        yamlStep_title _ rfl ttl.data ht1 ht2,
        yamlStep_tagsHeader _ rfl,
        foldl_tag_lines (t :: ts) _ rfl
          (fun x hx => ⟨(htags x hx).1, (htags x hx).2.1, (htags x hx).2.2.2⟩),
        yamlStep_created _ cdt hcv, yamlStep_updated _ udt huv]
      simp [mk_data_eta, mk_data_map, map_mk_comp_data, yamlInit]


theorem startsWithL_cons₄ (a b c d : Char) (rest : List Char) :
    startsWithL [a, b, c, d] (a :: b :: c :: d :: rest) = true := by
  simp [startsWithL, List.isPrefixOf]

theorem from_file_to_file (n : Note)
    (hu1 : trimL n.metadata.uid.data = n.metadata.uid.data)
    (hu2 : '\n' ∉ n.metadata.uid.data)
    (ht : ∀ t, n.metadata.title = some t →
      trimL t.data = t.data ∧ t.data ≠ [] ∧ '\n' ∉ t.data)
    (htags : ∀ t ∈ n.metadata.tags, trimL t.data = t.data ∧ t.data ≠ [] ∧ '\n' ∉ t.data ∧
        startsWithL ['-', ' '] t.data = false)
    (hcv : n.metadata.created_at.Valid) (huv : n.metadata.updated_at.Valid)
    (hbody : n.content.data.head? ≠ some '\n') :
    Note.from_file_content (Note.to_file_content n) = .ok ⟨n.metadata, n.content, false⟩ := by
  obtain ⟨m, content, dirty⟩ := n
  simp only at hu1 hu2 ht htags hcv huv hbody
  have hwf := yamlLines_wf m hu1 hu2 (fun t htt => ⟨(ht t htt).1, (ht t htt).2.2⟩)
    (fun t htm => ⟨(htags t htm).1, (htags t htm).2.2.1⟩)
  have hfy : NoteMetadata.from_yaml (joinNl (yamlLines m)) = some m := by
    rw [← to_yaml_eq_joinNl]
    exact from_yaml_to_yaml m hu1 hu2 ht htags hcv huv
  have hfind : firstIdxOf ['\n', '-', '-', '-']
      (joinNl (yamlLines m) ++ (['\n', '-', '-', '-', '\n', '\n'] ++ content.data)) =
      some (joinNl (yamlLines m)).length :=
    firstIdxOf_at _ _ _
      (fun k hk => fence_no_occ (yamlLines m)
        (fun l hl => ⟨(hwf l hl).1, (hwf l hl).2.1, (hwf l hl).2.2.2⟩) _ k hk)
      (by rw [show ['\n', '-', '-', '-', '\n', '\n'] ++ content.data =
            ['\n', '-', '-', '-'] ++ ('\n' :: '\n' :: content.data) from rfl]
          exact startsWithL_self _ _)
  simp only [Note.to_file_content, Note.from_file_content, to_yaml_eq_joinNl]
  rw [if_neg (by simp [startsWithL_cons₄])]
  rw [show List.drop 4 (['-', '-', '-', '\n'] ++ joinNl (yamlLines m) ++
      ['\n', '-', '-', '-', '\n', '\n'] ++ content.data) =
    joinNl (yamlLines m) ++ ['\n', '-', '-', '-', '\n', '\n'] ++ content.data from rfl]
  rw [List.append_assoc (joinNl (yamlLines m))]
  rw [hfind]
  simp only [List.take_left, hfy]
  rw [if_pos (show 4 + (joinNl (yamlLines m)).length + 4 <
      (['-', '-', '-', '\n'] ++ joinNl (yamlLines m) ++
        ['\n', '-', '-', '-', '\n', '\n'] ++ content.data).length from by
    simp [List.length_append]
    omega)]
  have hdrop : List.drop (4 + (joinNl (yamlLines m)).length + 4)
      (['-', '-', '-', '\n'] ++ joinNl (yamlLines m) ++
        ['\n', '-', '-', '-', '\n', '\n'] ++ content.data) =
      '\n' :: '\n' :: content.data := by
    rw [show ['-', '-', '-', '\n'] ++ joinNl (yamlLines m) ++
        ['\n', '-', '-', '-', '\n', '\n'] ++ content.data =
      (['-', '-', '-', '\n'] ++ joinNl (yamlLines m) ++ ['\n', '-', '-', '-']) ++
        ('\n' :: '\n' :: content.data) from by simp]
    rw [List.drop_left' (show (['-', '-', '-', '\n'] ++ joinNl (yamlLines m) ++
        ['\n', '-', '-', '-']).length = 4 + (joinNl (yamlLines m)).length + 4 from by
      simp [List.length_append]
      omega)]
  rw [hdrop]
  rw [show List.dropWhile (fun x => decide (x = '\n')) ('\n' :: '\n' :: content.data) =
    List.dropWhile (fun x => decide (x = '\n')) content.data from by simp]
  rw [dropWhile_nl_id hbody]


/-! ## C2 -/

def dC2 : DateTimeE := ⟨2024, 1, 2, 3, 4, 5⟩

def noteC2a : Note := ⟨⟨("u1"), none, [], dC2, dC2⟩, ("\nhello"), false⟩

/-- Counterexample to the unconditional round-trip: `to_file_content`
separates the front matter from the body with `"\n---\n\n"`, and
`from_file_content` strips every leading newline of the remainder, so
a body that begins with `'\n'` parses back without it: the parse
succeeds but the body text is not reproduced exactly. -/
theorem c2_round_trip_refuted :
    Note.from_file_content (Note.to_file_content noteC2a) =
      .ok ⟨noteC2a.metadata, ("hello"), false⟩ ∧ ("hello" : String) ≠ ("\nhello") :=
  ⟨rfl, by decide⟩

/-- C2 (amended): `Note::from_file_content ∘ Note::to_file_content`
reproduces the metadata (uid, title, tags, timestamps) and the body
exactly, for every note whose uid is trimmed and newline-free, whose
title (if any) is trimmed, non-empty and newline-free, whose tags are
trimmed, non-empty, newline-free and do not begin with `"- "`, whose
timestamps are calendar values in range, and whose body does not begin
with a newline.  The unconditional claim is refuted by
a body beginning with `'\n'`. -/
theorem c2_round_trip (n : Note)
    (huid : trimL n.metadata.uid.data = n.metadata.uid.data ∧ '\n' ∉ n.metadata.uid.data)
    (htitle : ∀ t, n.metadata.title = some t →
      trimL t.data = t.data ∧ t.data ≠ [] ∧ '\n' ∉ t.data)
    (htags : ∀ t ∈ n.metadata.tags, trimL t.data = t.data ∧ t.data ≠ [] ∧ '\n' ∉ t.data ∧
      startsWithL ['-', ' '] t.data = false)
    (hdates : n.metadata.created_at.Valid ∧ n.metadata.updated_at.Valid)
    (hbody : n.content.data.head? ≠ some '\n') :
    Note.from_file_content (Note.to_file_content n) = .ok ⟨n.metadata, n.content, false⟩ :=
  from_file_to_file n huid.1 huid.2 htitle htags hdates.1 hdates.2 hbody

def noteC2w : Note :=
  ⟨⟨("u1"), some ("T x"), [("alpha"), ("beta")], dC2, dC2⟩, ("hi\n# Head\nbody"), true⟩

theorem c2_witness :
    Note.from_file_content (Note.to_file_content noteC2w) =
      .ok ⟨noteC2w.metadata, noteC2w.content, false⟩ :=
  c2_round_trip noteC2w ⟨by decide, by decide⟩
    (fun t htt => by
      injection htt with h1
      subst h1
      exact ⟨by decide, by decide, by decide⟩)
    (by decide) ⟨by decide, by decide⟩ (by decide)

end Kaku
